import Mathlib

/-!
Verification of the core of `src/main.py` (Twitch vote wheel).

Python dictionaries are modelled as insertion-ordered association lists:
a lookup returns the value of the first (unique) matching key, an update
keeps the key's position, a fresh key is appended at the end, and `pop`
removes the key.  Python `int`s are modelled as `Int`, the float angles /
velocities of the wheel as `Rat` (the code only adds, multiplies by the
constants 0.985 and 360, divides and takes `%`; the rational model is
exact where the floating-point code rounds).
-/

namespace TwitchWheel

/-- Python `d.get(k)` on an insertion-ordered dict. -/
def dictGet {β : Type} (d : List (String × β)) (k : String) : Option β :=
  match d with
  | [] => none
  | (k', v) :: rest => if k' = k then some v else dictGet rest k

/-- Python `d.get(k, dflt)`. -/
def dictGetD {β : Type} (d : List (String × β)) (k : String) (dflt : β) : β :=
  (dictGet d k).getD dflt

/-- Python `d[k] = v`: update in place if the key exists, else append at the end. -/
def dictSet {β : Type} (d : List (String × β)) (k : String) (v : β) : List (String × β) :=
  match d with
  | [] => [(k, v)]
  | (k', v') :: rest => if k' = k then (k, v) :: rest else (k', v') :: dictSet rest k v

/-- Python `d.pop(k, None)`: drop the key's entry. -/
def dictPop {β : Type} (d : List (String × β)) (k : String) : List (String × β) :=
  d.filter (fun e => e.1 ≠ k)

/-- Keys of the dict, in insertion order (what `for k in d` iterates). -/
def dictKeys {β : Type} (d : List (String × β)) : List String :=
  d.map Prod.fst

/-- Python `sum(d.values())` of a tally dict. -/
def sumCounts (d : List (String × Int)) : Int :=
  (d.map Prod.snd).sum

/-- Number of senders currently mapped to `p` in a `user_votes` dict. -/
def countUsers (users : List (String × String)) (p : String) : Int :=
  ((users.filter (fun q => q.2 = p)).length : Int)

/-! ## Python string helpers -/

/-- The characters Python's `str.strip()` / `str.split()` treat as whitespace
(the ASCII ones; the code never feeds other Unicode space characters through
paths where the distinction matters). -/
def pyIsSpace (c : Char) : Bool :=
  c = ' ' || c = '\t' || c = '\n' || c = '\x0d' || c = '\x0b' || c = '\x0c'

/-- Python `str.strip()`. -/
def pyStrip (s : String) : String :=
  ⟨(s.data.dropWhile pyIsSpace).reverse.dropWhile pyIsSpace |>.reverse⟩

/-- Python `str.lower()` restricted to ASCII (the normalizer deletes every character
outside `[a-z0-9 ]` right after lowering, so only the ASCII case matters). -/
def pyLowerChar (c : Char) : Char :=
  if 'A' ≤ c ∧ c ≤ 'Z' then Char.ofNat (c.toNat + 32) else c

/-- Python `str.lower()` over a whole string. -/
def pyLower (s : String) : String :=
  ⟨s.data.map pyLowerChar⟩

/-- Python `str.split()` (no argument): split on whitespace runs, dropping empties. -/
def pyWords (s : String) : List String :=
  ((s.data.splitOnP pyIsSpace).filter (fun w => w ≠ [])).map (fun w => (⟨w⟩ : String))

/-- Python `" ".join(ws)`. -/
def joinSpace (ws : List String) : String :=
  String.intercalate " " ws

/-- Keep exactly the characters matched by the class `[a-z0-9\s]` of
`re.sub(r"[^a-z0-9\s]", "", ·)`. -/
def keepNormChar (c : Char) : Bool :=
  ('a' ≤ c && c ≤ 'z') || ('0' ≤ c && c ≤ '9') || pyIsSpace c

/-- The normalizer `App.normalize_phrase`: lower-case, collapse internal whitespace, strip,
delete everything outside `[a-z0-9\s]`, strip again. -/
def normalize_phrase (text : String) : String :=
  let lowered := joinSpace (pyWords (pyLower (pyStrip text)))
  pyStrip ⟨lowered.data.filter keepNormChar⟩

/-- Python's `needle in haystack` for strings: contiguous-substring test. -/
def isSubstr (needle haystack : List Char) : Bool :=
  needle.isPrefixOf haystack ||
    match haystack with
    | [] => false
    | _ :: rest => isSubstr needle rest

/-- ASCII digit test. -/
def isDigitC (c : Char) : Bool :=
  '0' ≤ c && c ≤ '9'

/-- Value of a list of ASCII digits. -/
def digitsToNat (ds : List Char) : Nat :=
  ds.foldl (fun n c => n * 10 + (c.toNat - 48)) 0

/-- Python `int(text)` with a `default` fallback, i.e. `App.safe_int`: optional
surrounding whitespace, an optional sign, then at least one ASCII digit
(Python's underscore separators and non-ASCII digits are not modelled; no
claim depends on them). -/
def pySafeInt (text : String) (default : Int) : Int :=
  match (pyStrip text).data with
  | [] => default
  | '-' :: rest =>
    if rest ≠ [] ∧ rest.all isDigitC then -(digitsToNat rest : Int) else default
  | '+' :: rest =>
    if rest ≠ [] ∧ rest.all isDigitC then (digitsToNat rest : Int) else default
  | cs => if cs.all isDigitC then (digitsToNat cs : Int) else default

/-! ## difflib.SequenceMatcher ratio

`SequenceMatcher(None, a, b).ratio()` is `2*M/T` where `T = len(a)+len(b)`
and `M` is the total size of the matching blocks: recursively take the
longest matching block of the current window (earliest in `a`, then
earliest in `b`, among the longest) and recurse on the parts left and
right of it.  The autojunk popularity heuristic only fires for strings of
length ≥ 200 and is not modelled (no claim involves such strings). -/

/-- Length of the longest common prefix of two character lists. -/
def commonLen : List Char → List Char → Nat
  | a :: as, b :: bs => if a = b then commonLen as bs + 1 else 0
  | _, _ => 0

/-- Length of the matching run starting at positions `i`, `j` inside the
windows `a[i:ahi]`, `b[j:bhi]`. -/
def runLen (a b : List Char) (ahi bhi i j : Nat) : Nat :=
  commonLen ((a.take ahi).drop i) ((b.take bhi).drop j)

/-- The search `SequenceMatcher.find_longest_match` on the windows `a[alo:ahi]`,
`b[blo:bhi]`: the start `(i, j)` and size `k` of the longest matching
block, ties broken by least `i`, then least `j`. -/
def findLongestBlock (a b : List Char) (alo ahi blo bhi : Nat) : Nat × Nat × Nat :=
  (List.range' alo (ahi - alo)).foldl
    (fun best i =>
      (List.range' blo (bhi - blo)).foldl
        (fun best j =>
          let k := runLen a b ahi bhi i j
          if best.2.2 < k then (i, j, k) else best)
        best)
    (alo, blo, 0)

/-- Total size of the matching blocks of the windows, with fuel: every
recursive call strictly shrinks the window perimeter, so the initial fuel
`a.length + b.length + 1` is never exhausted. -/
def matchTotalAux (a b : List Char) : Nat → Nat → Nat → Nat → Nat → Nat
  | 0, _, _, _, _ => 0
  | fuel + 1, alo, ahi, blo, bhi =>
    let best := findLongestBlock a b alo ahi blo bhi
    let i := best.1
    let j := best.2.1
    let k := best.2.2
    if k = 0 then 0
    else matchTotalAux a b fuel alo i blo j + k + matchTotalAux a b fuel (i + k) ahi (j + k) bhi

/-- The quantity `M`: total matched size for the whole strings. -/
def matchTotal (a b : List Char) : Nat :=
  matchTotalAux a b (a.length + b.length + 1) 0 a.length 0 b.length

/-- The test `SequenceMatcher(None, a, b).ratio() >= 0.86`, compared exactly:
`2*M/T ≥ 86/100  ↔  100*M ≥ 43*T` (`ratio()` returns `1.0` when `T = 0`). -/
def ratioGe86 (a b : String) : Bool :=
  let T := a.data.length + b.data.length
  T = 0 || 43 * T ≤ 100 * matchTotal a.data b.data

/-! ## App.find_matching_phrase -/

/-- Loop body of `find_matching_phrase`, iterating over the canonical
phrases (dict keys) in insertion order, with the code's early returns:
skip the ignored phrase, then exact equality, then substring in either
direction, then `ratio() >= 0.86`. -/
def findMatchAux (phrase ig : String) : List String → Option String
  | [] => none
  | existing :: rest =>
    if ig ≠ "" ∧ existing = ig then findMatchAux phrase ig rest
    else if phrase = existing then some existing
    else if isSubstr phrase.data existing.data || isSubstr existing.data phrase.data then
      some existing
    else if ratioGe86 phrase existing then some existing
    else findMatchAux phrase ig rest

/-- The matcher `App.find_matching_phrase(phrase, ignore_phrase)`. -/
def find_matching_phrase (vote_counts : List (String × Int)) (phrase : String)
    (ig : String := "") : Option String :=
  if phrase = "" then none else findMatchAux phrase ig (dictKeys vote_counts)

/-- One canonical phrase's acceptance test, as the spec words it: not the
excluded phrase, and equal, a substring either way, or similar enough. -/
def matchPred (phrase ig existing : String) : Bool :=
  !(ig ≠ "" && existing = ig) &&
    (phrase = existing || isSubstr phrase.data existing.data ||
      isSubstr existing.data phrase.data || ratioGe86 phrase existing)

/-- Modelled from the spec: "returns the first canonical phrase, iterating
in insertion order (skipping the optional excluded phrase), that satisfies
exact equality, or a substring relation in either direction, or a
similarity ratio of at least 0.86". -/
def findMatchSpec (vote_counts : List (String × Int)) (phrase ig : String) : Option String :=
  (dictKeys vote_counts).find? (matchPred phrase ig)

/-! ## Sorting (Python `sorted` with key `(-count, phrase)`) -/

/-- Stable insertion of one element: place `x` before the first `y` it
compares `le` to. -/
def insertLe {α : Type} (le : α → α → Bool) (x : α) : List α → List α
  | [] => [x]
  | y :: ys => if le x y then x :: y :: ys else y :: insertLe le x ys

/-- Stable insertion sort; agrees with Python's stable `sorted` for the
(total, transitive) comparisons used here. -/
def sortLe {α : Type} (le : α → α → Bool) : List α → List α
  | [] => []
  | x :: xs => insertLe le x (sortLe le xs)

/-- Python's string comparison: lexicographic on code points. -/
def strLeB : List Char → List Char → Bool
  | [], _ => true
  | _ :: _, [] => false
  | c :: cs, d :: ds =>
    if c.toNat < d.toNat then true
    else if d.toNat < c.toNat then false
    else strLeB cs ds

/-- Python `key=lambda x: (-x[1], x[0])` as a comparison: count descending, then
phrase ascending. -/
def keyLe (a b : String × Int) : Bool :=
  decide (b.2 < a.2) || (decide (a.2 = b.2) && strLeB a.1.data b.1.data)

/-- The selector `App.get_top_votes`, with the text box already read and clamped:
`maxPhrases = max(1, safe_int(self.max_phrases_var.get(), 10))`. -/
def get_top_votes (vote_counts : List (String × Int)) (maxPhrases : Nat) :
    List (String × Int) :=
  (sortLe keyLe vote_counts).take maxPhrases

/-! ## App state and operations -/

/-- The ledger-side fields of `App`: `voting_active`, `vote_end_at`,
`vote_counts` and `user_votes`. -/
structure St where
  voting_active : Bool
  vote_end_at : ℚ
  vote_counts : List (String × Int)
  user_votes : List (String × String)
deriving DecidableEq, Repr

/-- The wheel-side fields: `App.rotation`, `App.spin_velocity`,
`App.spinning`, and the canvas copy kept by `WheelCanvas.set_rotation`. -/
structure Wheel where
  rotation : ℚ
  spin_velocity : ℚ
  spinning : Bool
  canvas_rotation : ℚ
deriving DecidableEq, Repr

/-- The state set up by `App.__init__`. -/
def initSt : St :=
  { voting_active := false, vote_end_at := 0, vote_counts := [], user_votes := [] }

/-- Executable floor of a rational (`⌊x⌋`; the quotient `num / den` under
Euclidean division agrees with the floor since `den > 0`). -/
def ratFloor (x : ℚ) : Int :=
  x.num / (x.den : Int)

/-- Python's truncating `int(x)` on a rational. -/
def ratTrunc (x : ℚ) : Int :=
  if x < 0 then -(ratFloor (-x)) else ratFloor x

/-- Python's `x % n` on rationals (result in `[0, n)` for `n > 0`). -/
def qmod (x n : ℚ) : ℚ :=
  x - n * (ratFloor (x / n) : ℤ)

/-- The handler `App.start_vote` at wall-clock time `now` (`VOTE_DURATION_SECONDS = 120`). -/
def start_vote (s : St) (now : ℚ) : St :=
  { s with voting_active := true, vote_end_at := now + 120 }

/-- The handler `App.stop_vote`. -/
def stop_vote (s : St) : St :=
  if !s.voting_active then s else { s with voting_active := false, vote_end_at := 0 }

/-- The handler `App.clear_vote`. -/
def clear_vote (s : St) : St :=
  { s with voting_active := false, vote_end_at := 0, vote_counts := [], user_votes := [] }

/-- One firing of `App.update_timer` at wall-clock time `now` (the UI label
update is not modelled). -/
def update_timer (s : St) (now : ℚ) : St :=
  if s.voting_active then
    let remaining := max 0 (ratTrunc (s.vote_end_at - now))
    if remaining ≤ 0 then { s with voting_active := false } else s
  else s

/-- The previous-vote retraction step of `consume_vote`: decrement the
sender's previous phrase (when it exists and is still tallied) and drop it
at zero. -/
def consumeCounts1 (counts : List (String × Int)) (previous : Option String) :
    List (String × Int) :=
  match previous with
  | none => counts
  | some prev =>
    match dictGet counts prev with
    | none => counts
    | some v =>
      if v - 1 ≤ 0 then dictPop counts prev
      else dictSet counts prev (v - 1)

/-- The consumer `App.consume_vote(username, message)`. -/
def consume_vote (s : St) (username message : String) : St :=
  if !s.voting_active then s
  else
    let u := pyLower (pyStrip username)
    if u = "" then s
    else
      let phrase := normalize_phrase message
      if phrase = "" then s
      else
        let target := (find_matching_phrase s.vote_counts phrase).getD phrase
        let previous := dictGet s.user_votes u
        if previous = some target then s
        else
          let counts1 := consumeCounts1 s.vote_counts previous
          let counts2 := dictSet counts1 target (dictGetD counts1 target 0 + 1)
          { s with vote_counts := counts2, user_votes := dictSet s.user_votes u target }

/-- The handler `App.add_or_update_segment`, with the two text boxes passed in raw
(`votes = safe_int(new_votes, 1)`).  The `matched_phrase and matched_phrase
!= phrase` truthiness test reads a `None` match as the empty string. -/
def add_or_update_segment (s : St) (rawPhrase rawVotes : String) : St :=
  let phrase := normalize_phrase rawPhrase
  let votes := pySafeInt rawVotes 1
  if phrase = "" then s
  else
    let m := (find_matching_phrase s.vote_counts phrase).getD ""
    let counts1 :=
      if m ≠ "" ∧ m ≠ phrase then
        dictSet s.vote_counts m (max 0 (dictGetD s.vote_counts m 0 + votes))
      else dictSet s.vote_counts phrase (max 0 votes)
    let target := if m ≠ "" ∧ m ≠ phrase then m else phrase
    let counts2 := if dictGetD counts1 target 0 ≤ 0 then dictPop counts1 target else counts1
    { s with vote_counts := counts2 }

/-- The handler `App.remove_selected`, given the phrases of the selected table rows. -/
def remove_selected (s : St) (selection : List String) : St :=
  { s with vote_counts := selection.foldl dictPop s.vote_counts }

/-- The `save_edit` closure of `App.edit_tree_cell`.  `col` is 1 for the
phrase column and 2 for the votes column; `phrase_old` and `votes_old` are
the values read back from the table row (`votes_old = safe_int(cell, 1)`),
and `rawNew` is the editor's content (the code strips it first). -/
def save_edit (s : St) (col : Nat) (phrase_old : String) (votes_old : Int)
    (rawNew : String) : St :=
  let new_value := pyStrip rawNew
  if col = 1 then
    let phrase_new := normalize_phrase new_value
    if phrase_new = "" then s
    else if phrase_new = phrase_old then s
    else
      let counts1 := dictPop s.vote_counts phrase_old
      let target := (find_matching_phrase counts1 phrase_new phrase_old).getD phrase_new
      { s with vote_counts := dictSet counts1 target (dictGetD counts1 target 0 + votes_old) }
  else if col = 2 then
    let votes_new := pySafeInt new_value votes_old
    if (dictGet s.vote_counts phrase_old).isSome then
      if votes_new ≤ 0 then { s with vote_counts := dictPop s.vote_counts phrase_old }
      else { s with vote_counts := dictSet s.vote_counts phrase_old votes_new }
    else s
  else s

/-! ## App.import_segments -/

/-- Python `line.split("\\t")`: split at every tab, keeping empty parts. -/
def splitTabs (cs : List Char) : List (List Char) :=
  match cs with
  | [] => [[]]
  | c :: rest =>
    let r := splitTabs rest
    if c = '\t' then [] :: r
    else (c :: r.headD []) :: r.tail

/-- Does the stripped line start with `#`? -/
def lineStartsHash (s : String) : Bool :=
  match s.data with
  | '#' :: _ => true
  | _ => false

/-- Both sides of the last occurrence of `sep` (callers check presence
first), i.e. `s.rsplit(sep, 1)`. -/
def rsplitLast (s : String) (sep : Char) : String × String :=
  let rev := s.data.reverse
  let tl := rev.takeWhile (fun c => c ≠ sep)
  (⟨(rev.drop (tl.length + 1)).reverse⟩, ⟨tl.reverse⟩)

/-- Accumulator of the import loop: the merged `imported` tally dict and
the `imported_user_votes` dict. -/
structure ImportAcc where
  imported : List (String × Int)
  iuv : List (String × String)
deriving DecidableEq, Repr

/-- Fold `imported[target] = imported.get(target, 0) + votes` after running
the phrase through `find_matching_phrase` against the pre-import ledger. -/
def importMerge (old_counts : List (String × Int)) (acc : ImportAcc)
    (phrase : String) (votes : Int) : ImportAcc :=
  if phrase ≠ "" ∧ 0 < votes then
    let target := (find_matching_phrase old_counts phrase).getD phrase
    { acc with imported := dictSet acc.imported target (dictGetD acc.imported target 0 + votes) }
  else acc

/-- One iteration of the import loop over the file's lines.  Tagged
`SEGMENT`/`USERVOTE` lines need at least three tab-separated parts;
anything else falls through to the untagged `phrase<TAB>count`, then the
legacy `phrase count` format. -/
def importLine (old_counts : List (String × Int)) (acc : ImportAcc) (raw : String) :
    ImportAcc :=
  let line := pyStrip raw
  if line = "" || lineStartsHash line then acc
  else
    let parts := (splitTabs line.data).map (fun w => (⟨w⟩ : String))
    if 3 ≤ parts.length ∧ parts.headD "" = "SEGMENT" then
      importMerge old_counts acc (normalize_phrase (parts.getD 1 ""))
        (pySafeInt (pyStrip (parts.getD 2 "")) 0)
    else if 3 ≤ parts.length ∧ parts.headD "" = "USERVOTE" then
      let username := pyLower (pyStrip (parts.getD 1 ""))
      let phrase := normalize_phrase (parts.getD 2 "")
      if username ≠ "" ∧ phrase ≠ "" then { acc with iuv := dictSet acc.iuv username phrase }
      else acc
    else if line.data.contains '\t' then
      let pr := rsplitLast line '\t'
      importMerge old_counts acc (normalize_phrase pr.1) (pySafeInt (pyStrip pr.2) 0)
    else if line.data.contains ' ' then
      let pr := rsplitLast line ' '
      importMerge old_counts acc (normalize_phrase pr.1) (pySafeInt (pyStrip pr.2) 0)
    else acc

/-- The handler `App.import_segments`, given the file's lines: merge the segments,
replace `vote_counts`, keep only user votes whose phrase survives with a
positive count, then run the (by then unreachable) materialise-at-1 loop. -/
def import_segments (s : St) (fileLines : List String) : St :=
  let acc := fileLines.foldl (importLine s.vote_counts) ⟨[], []⟩
  let counts1 := acc.imported
  let users1 := acc.iuv.filter (fun q =>
    (dictGet counts1 q.2).isSome && decide (0 < dictGetD counts1 q.2 0))
  let counts2 := users1.foldl
    (fun cs q => if (dictGet cs q.2).isSome then cs else dictSet cs q.2 1) counts1
  { s with vote_counts := counts2, user_votes := users1 }

/-! ## Wheel operations -/

/-- The tick `App.update_spin_state`: advance the angle, decay the velocity by
0.985, snap to idle below 0.05, and push the wrapped angle to the canvas
(`WheelCanvas.set_rotation` stores `rotation % 360`). -/
def update_spin_state (w : Wheel) : Wheel :=
  if w.spinning || decide (0 < w.spin_velocity) then
    let r := w.rotation + w.spin_velocity
    let v := w.spin_velocity * (985 / 1000 : ℚ)
    if v < 1 / 20 then
      { rotation := r, spin_velocity := 0, spinning := false, canvas_rotation := qmod r 360 }
    else
      { rotation := r, spin_velocity := v, spinning := w.spinning,
        canvas_rotation := qmod r 360 }
  else w

/-- The handler `App.spin_wheel`, with the random impulse `random.uniform(18, 28)`
passed in.  The returned flag is true when the "No segments" message box
was shown instead of spinning (the rejection path). -/
def spin_wheel (vote_counts : List (String × Int)) (maxPhrases : Nat) (w : Wheel)
    (impulse : ℚ) : Wheel × Bool :=
  let top := get_top_votes vote_counts maxPhrases
  if !(top.any (fun e => decide (0 < e.2))) then (w, true)
  else
    ({ w with spin_velocity := min (w.spin_velocity + impulse) 120, spinning := true }, false)

/-! ## App.pointer_details -/

/-- The synthetic `unknown-1`, ..., `unknown-n` placeholder labels. -/
def unknownLabels (n : Nat) : List String :=
  (List.range n).map (fun i => "unknown-" ++ toString (i + 1))

/-- The candidate voters for a segment: senders mapped to the phrase,
sorted, truncated to the tally, padded with placeholders up to the tally.
(Python's `phrase_users[:votes]` would slice from the end for a negative
tally; the loop below only reaches this with a positive one.) -/
def voterSlots (users : List (String × String)) (phrase : String) (votes : Int) :
    List String :=
  let phrase_users :=
    sortLe (fun a b => strLeB a.data b.data) ((users.filter (fun q => q.2 = phrase)).map Prod.fst)
  let slots := phrase_users.take votes.toNat
  slots ++ unknownLabels (votes.toNat - slots.length)

/-- The `for phrase, votes in top_votes.items()` loop of `pointer_details`,
carrying the running start angle. -/
def pdLoop (users : List (String × String)) (total : Int) (wa : ℚ) :
    List (String × Int) → ℚ → Option (String × String)
  | [], _ => none
  | (phrase, votes) :: rest, running =>
    let extent : ℚ := 360 * ((votes : ℚ) / (total : ℚ))
    if running ≤ wa ∧ wa < running + extent then
      let slots := voterSlots users phrase votes
      if slots = [] then some (phrase, "voted by: -")
      else
        let localAngle := wa - running
        let slotExtent := extent / (slots.length : ℚ)
        let idx := min (slots.length - 1) (ratTrunc (localAngle / slotExtent)).toNat
        some (phrase, "voted by: " ++ slots.getD idx "")
    else pdLoop users total wa rest (running + extent)

/-- The resolver `App.pointer_details` (pointer fixed at 90°). -/
def pointer_details (vote_counts : List (String × Int))
    (users : List (String × String)) (maxPhrases : Nat) (rotation : ℚ) :
    String × String :=
  let top := get_top_votes vote_counts maxPhrases
  let total := sumCounts top
  if total ≤ 0 then ("", "")
  else
    let wa := qmod (90 - qmod rotation 360) 360
    match pdLoop users total wa top 0 with
    | some r => r
    | none => ((dictKeys top).headD "", "voted by: -")

/-! ## Invariant predicates (from the spec's §3/§4.3 invariants) -/

/-- Every stored tally is a positive integer. -/
def AllPos (d : List (String × Int)) : Prop :=
  ∀ e ∈ d, 0 < e.2

/-- Every sender entry maps to a phrase that is a key of `vote_counts`. -/
def OrphanFree (s : St) : Prop :=
  ∀ q ∈ s.user_votes, q.2 ∈ dictKeys s.vote_counts

/-- The inductive invariant of the chat-voting loop: unique keys on both
dicts, no orphaned sender, and every tallied phrase counted exactly by its
current senders (hence positively). -/
def LedgerInv (s : St) : Prop :=
  (dictKeys s.vote_counts).Nodup ∧
  (dictKeys s.user_votes).Nodup ∧
  (∀ q ∈ s.user_votes, q.2 ∈ dictKeys s.vote_counts) ∧
  (∀ p v, dictGet s.vote_counts p = some v →
    v = countUsers s.user_votes p ∧ 1 ≤ v)

/-- Sum of the first `i` counts of a top-K view. -/
def partialSum (entries : List (String × Int)) (i : Nat) : Int :=
  ((entries.take i).map Prod.snd).sum

/-- Modelled from the spec: the cumulative angle boundary before entry `i`
of the view, i.e. 360 times the weight share of the first `i` entries. -/
def cumAngle (entries : List (String × Int)) (total : Int) (i : Nat) : ℚ :=
  360 * ((partialSum entries i : ℤ) : ℚ) / (total : ℚ)

/-- Modelled from the spec: partition `[0, 360)` among the view's entries in
order, proportionally to count over total, and return the phrase of the
entry whose half-open cumulative interval contains the wheel angle. -/
def specResolvePhrase (entries : List (String × Int)) (total : Int) (wa : ℚ) :
    Option String :=
  ((List.range entries.length).find? (fun i =>
      decide (cumAngle entries total i ≤ wa ∧ wa < cumAngle entries total (i + 1)))).map
    (fun i => (entries.getD i ("", 0)).1)

/-! ## Association-list lemmas -/

theorem dictGet_dictSet_self {β : Type} (d : List (String × β)) (k : String) (v : β) :
    dictGet (dictSet d k v) k = some v := by
  induction d with
  | nil => simp [dictGet, dictSet]
  | cons e rest ih =>
    by_cases h : e.1 = k
    · simp [dictSet, dictGet, h]
    · simp [dictSet, dictGet, h, ih]

theorem dictGet_dictSet_ne {β : Type} (d : List (String × β)) (k k' : String) (v : β)
    (h : k' ≠ k) : dictGet (dictSet d k v) k' = dictGet d k' := by
  have hkk' : ¬k = k' := fun h' => h h'.symm
  induction d with
  | nil => simp [dictGet, dictSet, hkk']
  | cons e rest ih =>
    obtain ⟨k1, v1⟩ := e
    by_cases he : k1 = k
    · subst he
      simp [dictSet, dictGet, hkk']
    · by_cases he' : k1 = k'
      · simp [dictSet, dictGet, he, he', h]
      · simp [dictSet, dictGet, he, he', ih]

theorem mem_of_dictGet_eq_some {β : Type} (d : List (String × β)) (k : String) (v : β)
    (h : dictGet d k = some v) : (k, v) ∈ d := by
  induction d with
  | nil => simp [dictGet] at h
  | cons e rest ih =>
    by_cases he : e.1 = k
    · simp only [dictGet, if_pos he] at h
      obtain ⟨k', v'⟩ := e
      cases he
      cases h
      exact List.mem_cons_self _ _
    · simp only [dictGet, if_neg he] at h
      exact List.mem_cons_of_mem _ (ih h)

theorem dictGet_isSome_iff_mem_keys {β : Type} (d : List (String × β)) (k : String) :
    (dictGet d k).isSome = true ↔ k ∈ dictKeys d := by
  induction d with
  | nil => simp [dictGet, dictKeys]
  | cons e rest ih =>
    obtain ⟨k1, v1⟩ := e
    by_cases he : k1 = k
    · simp [dictGet, dictKeys, he]
    · have hne : ¬k = k1 := fun h => he h.symm
      simp [dictGet, dictKeys, he, hne, ih]

theorem dictGet_eq_none_of_not_mem {β : Type} (d : List (String × β)) (k : String)
    (h : k ∉ dictKeys d) : dictGet d k = none := by
  cases hg : dictGet d k with
  | none => rfl
  | some v =>
    exact absurd ((dictGet_isSome_iff_mem_keys d k).mp (by simp [hg])) h

theorem mem_keys_of_dictGet_eq_some {β : Type} (d : List (String × β)) (k : String) (v : β)
    (h : dictGet d k = some v) : k ∈ dictKeys d :=
  (dictGet_isSome_iff_mem_keys d k).mp (by simp [h])

theorem dictKeys_dictSet_mem {β : Type} (d : List (String × β)) (k : String) (v : β)
    (h : k ∈ dictKeys d) : dictKeys (dictSet d k v) = dictKeys d := by
  induction d with
  | nil => simp [dictKeys] at h
  | cons e rest ih =>
    obtain ⟨k1, v1⟩ := e
    by_cases he : k1 = k
    · simp [dictSet, dictKeys, he]
    · have hk : k ∈ dictKeys rest := by
        simp only [dictKeys, List.map_cons, List.mem_cons] at h
        exact h.resolve_left (fun h' => he h'.symm)
      simp only [dictSet, if_neg he, dictKeys, List.map_cons]
      rw [show List.map Prod.fst (dictSet rest k v) = dictKeys (dictSet rest k v) from rfl,
        ih hk]
      rfl

theorem dictKeys_dictSet_not_mem {β : Type} (d : List (String × β)) (k : String) (v : β)
    (h : k ∉ dictKeys d) : dictKeys (dictSet d k v) = dictKeys d ++ [k] := by
  induction d with
  | nil => simp [dictSet, dictKeys]
  | cons e rest ih =>
    obtain ⟨k1, v1⟩ := e
    have he : ¬k1 = k := by
      intro h'
      exact h (by simp [dictKeys, h'])
    have hk : k ∉ dictKeys rest := by
      intro h'
      exact h (by simp only [dictKeys, List.map_cons]; exact List.mem_cons_of_mem _ h')
    simp only [dictSet, if_neg he, dictKeys, List.map_cons, List.cons_append]
    rw [show List.map Prod.fst (dictSet rest k v) = dictKeys (dictSet rest k v) from rfl,
      ih hk]
    rfl

theorem dictKeys_dictPop {β : Type} (d : List (String × β)) (k : String) :
    dictKeys (dictPop d k) = (dictKeys d).filter (fun x => x ≠ k) := by
  induction d with
  | nil => rfl
  | cons e rest ih =>
    by_cases he : e.1 = k <;> simp [dictPop, dictKeys, he, List.filter] at ih ⊢ <;>
      simpa [dictPop, dictKeys] using ih

theorem mem_dictSet {β : Type} (d : List (String × β)) (k : String) (v : β)
    (e : String × β) (h : e ∈ dictSet d k v) : e ∈ d ∨ e = (k, v) := by
  induction d with
  | nil => simp [dictSet] at h; exact Or.inr h
  | cons f rest ih =>
    by_cases hf : f.1 = k
    · simp only [dictSet, if_pos hf, List.mem_cons] at h
      rcases h with h | h
      · exact Or.inr h
      · exact Or.inl (List.mem_cons_of_mem _ h)
    · simp only [dictSet, if_neg hf, List.mem_cons] at h
      rcases h with h | h
      · exact Or.inl (by simp [h])
      · rcases ih h with h' | h'
        · exact Or.inl (List.mem_cons_of_mem _ h')
        · exact Or.inr h'

theorem mem_of_mem_dictPop {β : Type} (d : List (String × β)) (k : String)
    (e : String × β) (h : e ∈ dictPop d k) : e ∈ d :=
  List.mem_of_mem_filter h

theorem dictGet_dictPop_ne {β : Type} (d : List (String × β)) (k k' : String)
    (h : k' ≠ k) : dictGet (dictPop d k) k' = dictGet d k' := by
  induction d with
  | nil => rfl
  | cons e rest ih =>
    obtain ⟨k1, v1⟩ := e
    by_cases he : k1 = k
    · have hne : ¬k1 = k' := by rw [he]; exact fun h' => h h'.symm
      rw [show dictPop ((k1, v1) :: rest) k = dictPop rest k from by
        simp [dictPop, List.filter_cons_of_neg, he]]
      rw [ih]
      simp [dictGet, hne]
    · rw [show dictPop ((k1, v1) :: rest) k = (k1, v1) :: dictPop rest k from by
        simp [dictPop, List.filter_cons_of_pos, he]]
      by_cases he' : k1 = k'
      · simp [dictGet, he']
      · simp [dictGet, he', ih]

/-! ## find? helper lemmas -/

theorem find?_filter_stable {α : Type} (p q : α → Bool) (l : List α) (t : α)
    (hf : l.find? p = some t) (hq : q t = true) : (l.filter q).find? p = some t := by
  induction l with
  | nil => simp at hf
  | cons x rest ih =>
    by_cases hp : p x
    · have : x = t := by
        rw [List.find?_cons_of_pos _ hp] at hf
        exact Option.some_injective _ hf
      subst this
      rw [List.filter_cons_of_pos hq]
      exact List.find?_cons_of_pos _ hp
    · rw [List.find?_cons_of_neg _ hp] at hf
      by_cases hqx : q x
      · rw [List.filter_cons_of_pos hqx]
        rw [List.find?_cons_of_neg _ hp]
        exact ih hf
      · rw [List.filter_cons_of_neg (by simpa using hqx)]
        exact ih hf

/-! ## The C5 refinement -/

theorem findMatchSpec_eq_find? (vote_counts : List (String × Int)) (phrase ig : String) :
    findMatchSpec vote_counts phrase ig = (dictKeys vote_counts).find? (matchPred phrase ig) :=
  rfl

theorem findMatchAux_eq_find? (phrase ig : String) (keys : List String) :
    findMatchAux phrase ig keys = keys.find? (matchPred phrase ig) := by
  induction keys with
  | nil => rfl
  | cons existing rest ih =>
    by_cases hskip : ig ≠ "" ∧ existing = ig
    · have hp : matchPred phrase ig existing = false := by
        simp [matchPred, hskip.1, hskip.2]
      rw [List.find?_cons_of_neg _ (by simp [hp])]
      simp only [findMatchAux, if_pos hskip]
      exact ih
    · have hns : (ig ≠ "" && existing = ig) = false := by
        by_cases hig : ig = ""
        · simp [hig]
        · have hex : ¬existing = ig := fun h' => hskip ⟨hig, h'⟩
          simp [hig, hex]
      have hmp : matchPred phrase ig existing =
          (phrase = existing || isSubstr phrase.data existing.data ||
            isSubstr existing.data phrase.data || ratioGe86 phrase existing) := by
        unfold matchPred
        rw [hns]
        simp
      by_cases heq : phrase = existing
      · have hp : matchPred phrase ig existing = true := by rw [hmp]; simp [heq]
        rw [List.find?_cons_of_pos _ hp]
        simp [findMatchAux, hskip, heq]
      · cases hsub : (isSubstr phrase.data existing.data || isSubstr existing.data phrase.data) with
        | true =>
          have hp : matchPred phrase ig existing = true := by
            rw [hmp]
            rcases Bool.or_eq_true_iff.mp hsub with h | h <;> simp [h]
          rw [List.find?_cons_of_pos _ hp]
          simp only [findMatchAux, if_neg hskip, if_neg heq]
          rw [if_pos hsub]
        | false =>
          obtain ⟨hs1, hs2⟩ := Bool.or_eq_false_iff.mp hsub
          cases hrat : ratioGe86 phrase existing with
          | true =>
            have hp : matchPred phrase ig existing = true := by rw [hmp]; simp [hrat]
            rw [List.find?_cons_of_pos _ hp]
            simp only [findMatchAux, if_neg hskip, if_neg heq]
            rw [if_neg (by simp [hsub]), if_pos hrat]
          | false =>
            have hp : matchPred phrase ig existing = false := by
              rw [hmp]
              simp [heq, hs1, hs2, hrat]
            rw [List.find?_cons_of_neg _ (by simp [hp])]
            simp only [findMatchAux, if_neg hskip, if_neg heq]
            rw [if_neg (by simp [hsub]), if_neg (by simp [hrat])]
            exact ih

theorem find_matching_phrase_eq_spec (vote_counts : List (String × Int))
    (phrase ig : String) (h : phrase ≠ "") :
    find_matching_phrase vote_counts phrase ig = findMatchSpec vote_counts phrase ig := by
  rw [find_matching_phrase, if_neg h, findMatchSpec_eq_find?, findMatchAux_eq_find?]

/-! ## Sorting lemmas -/

theorem insertLe_perm {α : Type} (le : α → α → Bool) (x : α) (l : List α) :
    List.Perm (insertLe le x l) (x :: l) := by
  induction l with
  | nil => exact List.Perm.refl _
  | cons y ys ih =>
    by_cases h : le x y
    · simp only [insertLe, if_pos h]
      exact List.Perm.refl _
    · simp only [insertLe, if_neg h]
      exact (ih.cons y).trans (List.Perm.swap x y ys)

theorem sortLe_perm {α : Type} (le : α → α → Bool) (l : List α) :
    List.Perm (sortLe le l) l := by
  induction l with
  | nil => exact List.Perm.refl _
  | cons x xs ih => exact (insertLe_perm le x (sortLe le xs)).trans (ih.cons x)

theorem insertLe_pairwise {α : Type} (le : α → α → Bool)
    (htot : ∀ a b, le a b = true ∨ le b a = true)
    (htrans : ∀ a b c, le a b = true → le b c = true → le a c = true)
    (x : α) (l : List α) (hl : l.Pairwise (fun a b => le a b = true)) :
    (insertLe le x l).Pairwise (fun a b => le a b = true) := by
  induction l with
  | nil => simp [insertLe]
  | cons y ys ih =>
    rw [List.pairwise_cons] at hl
    by_cases h : le x y
    · simp only [insertLe, if_pos h]
      rw [List.pairwise_cons]
      refine ⟨?_, List.pairwise_cons.mpr hl⟩
      intro z hz
      rcases List.mem_cons.mp hz with hz | hz
      · exact hz ▸ h
      · exact htrans _ _ _ h (hl.1 z hz)
    · simp only [insertLe, if_neg h]
      rw [List.pairwise_cons]
      have hyx : le y x = true := (htot x y).resolve_left (by simpa using h)
      refine ⟨?_, ih hl.2⟩
      intro z hz
      have hz' : z ∈ x :: ys := (insertLe_perm le x ys).mem_iff.mp hz
      rcases List.mem_cons.mp hz' with hz' | hz'
      · exact hz' ▸ hyx
      · exact hl.1 z hz'

theorem sortLe_pairwise {α : Type} (le : α → α → Bool)
    (htot : ∀ a b, le a b = true ∨ le b a = true)
    (htrans : ∀ a b c, le a b = true → le b c = true → le a c = true)
    (l : List α) : (sortLe le l).Pairwise (fun a b => le a b = true) := by
  induction l with
  | nil => simp [sortLe]
  | cons x xs ih => exact insertLe_pairwise le htot htrans x (sortLe le xs) ih

theorem strLeB_total : ∀ (a b : List Char), strLeB a b = true ∨ strLeB b a = true
  | [], _ => Or.inl rfl
  | _ :: _, [] => Or.inr rfl
  | c :: cs, d :: ds => by
    rcases Nat.lt_trichotomy c.toNat d.toNat with h | h | h
    · left
      simp [strLeB, h]
    · have h2 : ¬c.toNat < d.toNat := by omega
      have h3 : ¬d.toNat < c.toNat := by omega
      rcases strLeB_total cs ds with ih | ih
      · left
        simp [strLeB, h2, h3, ih]
      · right
        simp [strLeB, h2, h3, ih]
    · right
      simp [strLeB, h]

theorem strLeB_trans :
    ∀ (a b c : List Char), strLeB a b = true → strLeB b c = true → strLeB a c = true
  | [], _, _, _, _ => rfl
  | _ :: _, [], _, hab, _ => by simp [strLeB] at hab
  | _ :: _, _ :: _, [], _, hbc => by simp [strLeB] at hbc
  | x :: xs, y :: ys, z :: zs, hab, hbc => by
    by_cases h1 : x.toNat < y.toNat <;> by_cases h2 : y.toNat < z.toNat
    · simp [strLeB, Nat.lt_trans h1 h2]
    · by_cases h3 : z.toNat < y.toNat
      · simp [strLeB, h2, h3] at hbc
      · have hyz : y.toNat = z.toNat := by omega
        simp [strLeB, hyz ▸ h1]
    · by_cases h3 : y.toNat < x.toNat
      · simp [strLeB, h1, h3] at hab
      · have hxy : x.toNat = y.toNat := by omega
        simp [strLeB, hxy ▸ h2]
    · by_cases h3 : y.toNat < x.toNat
      · simp [strLeB, h1, h3] at hab
      · by_cases h4 : z.toNat < y.toNat
        · simp [strLeB, h2, h4] at hbc
        · have hab' : strLeB xs ys = true := by simpa [strLeB, h1, h3] using hab
          have hbc' : strLeB ys zs = true := by simpa [strLeB, h2, h4] using hbc
          have hxz1 : ¬x.toNat < z.toNat := by omega
          have hxz2 : ¬z.toNat < x.toNat := by omega
          simp [strLeB, hxz1, hxz2, strLeB_trans xs ys zs hab' hbc']

theorem strLeB_antisymm :
    ∀ (a b : List Char), strLeB a b = true → strLeB b a = true → a = b
  | [], [], _, _ => rfl
  | [], _ :: _, _, hba => by simp [strLeB] at hba
  | _ :: _, [], hab, _ => by simp [strLeB] at hab
  | c :: cs, d :: ds, hab, hba => by
    by_cases h1 : c.toNat < d.toNat
    · have h2 : ¬d.toNat < c.toNat := by omega
      simp [strLeB, h1, h2] at hba
    · by_cases h2 : d.toNat < c.toNat
      · simp [strLeB, h1, h2] at hab
      · have hcd : c.toNat = d.toNat := by omega
        have hc : c = d := Char.ext (UInt32.ext hcd)
        have hab' : strLeB cs ds = true := by simpa [strLeB, h1, h2] using hab
        have hba' : strLeB ds cs = true := by simpa [strLeB, h1, h2] using hba
        rw [hc, strLeB_antisymm cs ds hab' hba']

theorem keyLe_iff (a b : String × Int) :
    keyLe a b = true ↔ (b.2 < a.2 ∨ (a.2 = b.2 ∧ strLeB a.1.data b.1.data = true)) := by
  simp [keyLe]

theorem keyLe_total (a b : String × Int) : keyLe a b = true ∨ keyLe b a = true := by
  rcases lt_trichotomy a.2 b.2 with h | h | h
  · exact Or.inr ((keyLe_iff b a).mpr (Or.inl h))
  · rcases strLeB_total a.1.data b.1.data with hs | hs
    · exact Or.inl ((keyLe_iff a b).mpr (Or.inr ⟨h, hs⟩))
    · exact Or.inr ((keyLe_iff b a).mpr (Or.inr ⟨h.symm, hs⟩))
  · exact Or.inl ((keyLe_iff a b).mpr (Or.inl h))

theorem keyLe_trans (a b c : String × Int)
    (hab : keyLe a b = true) (hbc : keyLe b c = true) : keyLe a c = true := by
  rw [keyLe_iff] at hab hbc ⊢
  rcases hab with h1 | ⟨h1, h1'⟩ <;> rcases hbc with h2 | ⟨h2, h2'⟩
  · exact Or.inl (h2.trans h1)
  · exact Or.inl (h2 ▸ h1)
  · exact Or.inl (h1 ▸ h2)
  · exact Or.inr ⟨h1.trans h2, strLeB_trans _ _ _ h1' h2'⟩

theorem keyLe_antisymm (a b : String × Int)
    (hab : keyLe a b = true) (hba : keyLe b a = true) : a = b := by
  rw [keyLe_iff] at hab hba
  rcases hab with h1 | ⟨h1, h1'⟩ <;> rcases hba with h2 | ⟨h2, h2'⟩
  · exact absurd h1 (lt_asymm h2)
  · exact absurd h1 (h2 ▸ lt_irrefl _)
  · exact absurd h2 (h1 ▸ lt_irrefl _)
  · have hs : a.1.data = b.1.data := strLeB_antisymm _ _ h1' h2'
    have h1s : a.1 = b.1 := by
      cases a1 : a.1
      cases b1 : b.1
      rw [a1, b1] at hs
      exact congrArg String.mk hs
    exact Prod.ext h1s h1

theorem sortLe_keyLe_eq_of_sorted (l l' : List (String × Int))
    (hperm : List.Perm l' l)
    (hsorted : l'.Pairwise (fun a b => keyLe a b = true)) :
    sortLe keyLe l = l' := by
  haveI : IsAntisymm (String × Int) (fun a b => keyLe a b = true) := ⟨keyLe_antisymm⟩
  exact List.eq_of_perm_of_sorted ((sortLe_perm keyLe l).trans hperm.symm)
    (sortLe_pairwise keyLe keyLe_total keyLe_trans l) hsorted

theorem mem_get_top_votes (vote_counts : List (String × Int)) (K : Nat)
    (e : String × Int) (h : e ∈ get_top_votes vote_counts K) : e ∈ vote_counts := by
  have h1 : e ∈ sortLe keyLe vote_counts :=
    (List.take_sublist K _).mem h
  exact (sortLe_perm keyLe vote_counts).mem_iff.mp h1

/-! ## Claim theorems: C5 and C7 -/

/-- C5: for every non-empty normalized candidate phrase, every tally map
and every excluded phrase, `find_matching_phrase` returns exactly the first
canonical phrase in insertion order — skipping the excluded one — that is
equal to the candidate, is in a substring relation with it in either
direction, or has a greedy longest-matching-block ratio `2*M/T ≥ 0.86`;
it returns `none` when no phrase qualifies (the spec-side first-match
function `findMatchSpec` is exactly that description). -/
theorem claim_C5 (vote_counts : List (String × Int)) (phrase ig : String)
    (h : phrase ≠ "") :
    find_matching_phrase vote_counts phrase ig = findMatchSpec vote_counts phrase ig :=
  find_matching_phrase_eq_spec vote_counts phrase ig h

/-- Witness for C5: a concrete fuzzy lookup ("piza" against canonical
"pizza", ratio 8/9 ≈ 0.889). -/
theorem claim_C5_witness :
    ("piza" : String) ≠ "" ∧
      find_matching_phrase [("pizza", 1)] "piza" "" = findMatchSpec [("pizza", 1)] "piza" "" :=
  ⟨by decide, claim_C5 [("pizza", 1)] "piza" "" (by decide)⟩

/-- C7: for every tally map and cap `K`, the top-K view is exactly the
tally entries sorted by count descending with ties broken by phrase
ascending (i.e. it equals the first `K` entries of any `keyLe`-sorted
permutation of the tally map — the sorted permutation being unique, the
result is deterministic); in particular the tally
`{"a": 3, "b": 3, "c": 1}` with `K = 2` yields `[("a",3), ("b",3)]`. -/
theorem claim_C7 :
    (∀ (vote_counts : List (String × Int)) (K : Nat) (l' : List (String × Int)),
        List.Perm l' vote_counts → l'.Pairwise (fun a b => keyLe a b = true) →
        get_top_votes vote_counts K = l'.take K) ∧
      get_top_votes [("a", 3), ("b", 3), ("c", 1)] 2 = [("a", 3), ("b", 3)] := by
  constructor
  · intro vote_counts K l' hperm hsorted
    unfold get_top_votes
    rw [sortLe_keyLe_eq_of_sorted vote_counts l' hperm hsorted]
  · rfl

/-- Witness for C7: the general part applied to a concrete permuted tally. -/
theorem claim_C7_witness :
    get_top_votes [("c", 1), ("b", 3), ("a", 3)] 2 =
      [("a", 3), ("b", 3), ("c", 1)].take 2 :=
  claim_C7.1 [("c", 1), ("b", 3), ("a", 3)] 2 [("a", 3), ("b", 3), ("c", 1)]
    (by decide) (by decide)

/-! ## Sum helpers -/

theorem sumCounts_cons (e : String × Int) (l : List (String × Int)) :
    sumCounts (e :: l) = e.2 + sumCounts l := by
  simp [sumCounts]

theorem sumCounts_nonneg (l : List (String × Int)) (h : ∀ e ∈ l, 0 ≤ e.2) :
    0 ≤ sumCounts l := by
  induction l with
  | nil => simp [sumCounts]
  | cons e rest ih =>
    rw [sumCounts_cons]
    have h1 := h e (List.mem_cons_self _ _)
    have h2 := ih (fun x hx => h x (List.mem_cons_of_mem _ hx))
    omega

theorem not_any_pos_of_sum_eq_zero (l : List (String × Int))
    (h : ∀ e ∈ l, 0 ≤ e.2) (hz : sumCounts l = 0) :
    l.any (fun e => decide (0 < e.2)) = false := by
  induction l with
  | nil => rfl
  | cons e rest ih =>
    rw [sumCounts_cons] at hz
    have h1 := h e (List.mem_cons_self _ _)
    have h2 := sumCounts_nonneg rest (fun x hx => h x (List.mem_cons_of_mem _ hx))
    have he : e.2 = 0 := by omega
    have hr : sumCounts rest = 0 := by omega
    simp [List.any_cons, he, ih (fun x hx => h x (List.mem_cons_of_mem _ hx)) hr]

theorem any_pos_of_sum_pos (l : List (String × Int)) (h : 0 < sumCounts l) :
    l.any (fun e => decide (0 < e.2)) = true := by
  induction l with
  | nil => simp [sumCounts] at h
  | cons e rest ih =>
    rw [sumCounts_cons] at h
    by_cases he : 0 < e.2
    · simp [List.any_cons, he]
    · have hr : 0 < sumCounts rest := by omega
      simp [List.any_cons, ih hr]

/-! ## Rational floor lemmas -/

theorem ratFloor_eq_floor (x : ℚ) : ratFloor x = ⌊x⌋ :=
  Rat.floor_def.symm

theorem ratTrunc_nonpos (x : ℚ) (h : x ≤ 0) : ratTrunc x ≤ 0 := by
  unfold ratTrunc
  by_cases hx : x < 0
  · rw [if_pos hx, ratFloor_eq_floor]
    have : (0 : ℤ) ≤ ⌊-x⌋ := Int.floor_nonneg.mpr (by linarith)
    omega
  · rw [if_neg hx, ratFloor_eq_floor]
    have hx0 : x = 0 := le_antisymm h (not_lt.mp hx)
    simp [hx0]

theorem qmod_eq_floor (x n : ℚ) : qmod x n = x - n * (⌊x / n⌋ : ℤ) := by
  rw [qmod, ratFloor_eq_floor]

theorem qmod_nonneg (x n : ℚ) (hn : 0 < n) : 0 ≤ qmod x n := by
  rw [qmod_eq_floor]
  have h1 : (⌊x / n⌋ : ℚ) ≤ x / n := Int.floor_le _
  have h2 : n * (⌊x / n⌋ : ℚ) ≤ n * (x / n) := by
    exact mul_le_mul_of_nonneg_left h1 (le_of_lt hn)
  rw [mul_div_cancel₀ x (ne_of_gt hn)] at h2
  linarith

theorem qmod_lt (x n : ℚ) (hn : 0 < n) : qmod x n < n := by
  rw [qmod_eq_floor]
  have h1 : x / n < (⌊x / n⌋ : ℚ) + 1 := Int.lt_floor_add_one _
  have h2 : n * (x / n) < n * ((⌊x / n⌋ : ℚ) + 1) := by
    exact mul_lt_mul_of_pos_left h1 hn
  rw [mul_div_cancel₀ x (ne_of_gt hn)] at h2
  nlinarith

/-! ## Claim C9: empty-weight spin request -/

/-- C9: a spin request with a zero-total top-K view (all tallies being
non-negative) leaves rotation, velocity and the spinning flag untouched and
raises the user-visible rejection signal instead of an exception; with a
positive total it adds the clamped impulse and sets the spinning flag. -/
theorem claim_C9 (vote_counts : List (String × Int)) (K : Nat) (w : Wheel)
    (impulse : ℚ) (hnn : ∀ e ∈ vote_counts, 0 ≤ e.2) :
    (sumCounts (get_top_votes vote_counts K) = 0 →
      spin_wheel vote_counts K w impulse = (w, true)) ∧
    (0 < sumCounts (get_top_votes vote_counts K) →
      spin_wheel vote_counts K w impulse =
        ({ w with
            spin_velocity := min (w.spin_velocity + impulse) 120,
            spinning := true }, false)) := by
  constructor
  · intro hz
    have htop : ∀ e ∈ get_top_votes vote_counts K, 0 ≤ e.2 :=
      fun e he => hnn e (mem_get_top_votes _ _ _ he)
    have hany := not_any_pos_of_sum_eq_zero _ htop hz
    unfold spin_wheel
    simp [hany]
  · intro hp
    have hany := any_pos_of_sum_pos _ hp
    unfold spin_wheel
    simp [hany]

/-- Witness for C9: a one-segment wheel accepts a spin of impulse 20. -/
theorem claim_C9_witness :
    spin_wheel [("a", 2)] 1 ⟨0, 0, false, 0⟩ 20 =
      ({ (⟨0, 0, false, 0⟩ : Wheel) with
          spin_velocity := min ((0 : ℚ) + 20) 120,
          spinning := true }, false) :=
  (claim_C9 [("a", 2)] 1 ⟨0, 0, false, 0⟩ 20 (by decide)).2 (by decide)

/-! ## Claim C10: votes only mutate the ledger during a voting window -/

/-- C10: a chat event leaves the whole ledger state unchanged whenever the
voting window is inactive — which is the initial state and the state after
`stop_vote`, `clear_vote` or the timer expiring — and likewise when the
sender name trims/lowers to the empty string or the message normalizes to
the empty phrase. -/
theorem claim_C10 :
    (∀ (s : St) (u m : String), s.voting_active = false → consume_vote s u m = s) ∧
    initSt.voting_active = false ∧
    (∀ s : St, (stop_vote s).voting_active = false) ∧
    (∀ s : St, (clear_vote s).voting_active = false) ∧
    (∀ (s : St) (now : ℚ), ratTrunc (s.vote_end_at - now) ≤ 0 →
      (update_timer s now).voting_active = false) ∧
    (∀ (s : St) (u m : String), pyLower (pyStrip u) = "" → consume_vote s u m = s) ∧
    (∀ (s : St) (u m : String), normalize_phrase m = "" → consume_vote s u m = s) := by
  refine ⟨?_, rfl, ?_, ?_, ?_, ?_, ?_⟩
  · intro s u m h
    simp [consume_vote, h]
  · intro s
    unfold stop_vote
    by_cases h : s.voting_active <;> simp [h]
  · intro s
    rfl
  · intro s now h
    unfold update_timer
    by_cases ha : s.voting_active
    · have hm : max 0 (ratTrunc (s.vote_end_at - now)) ≤ 0 := by omega
      simp [ha, hm]
    · simp [ha]
  · intro s u m h
    unfold consume_vote
    by_cases ha : s.voting_active
    · simp [ha, h]
    · simp [ha]
  · intro s u m h
    unfold consume_vote
    by_cases ha : s.voting_active
    · by_cases hu : pyLower (pyStrip u) = "" <;> simp [ha, hu, h]
    · simp [ha]

/-- Witness for C10 at concrete states and events. -/
theorem claim_C10_witness :
    consume_vote ⟨false, 0, [], []⟩ "bob" "cats" = ⟨false, 0, [], []⟩ ∧
    consume_vote ⟨true, 0, [], []⟩ "   " "cats" = ⟨true, 0, [], []⟩ ∧
    consume_vote ⟨true, 0, [], []⟩ "bob" "!!!" = ⟨true, 0, [], []⟩ ∧
    (update_timer ⟨true, 100, [], []⟩ 200).voting_active = false :=
  ⟨claim_C10.1 _ "bob" "cats" rfl,
   claim_C10.2.2.2.2.2.1 _ "   " "cats" (by decide),
   claim_C10.2.2.2.2.2.2 _ "bob" "!!!" (by decide),
   claim_C10.2.2.2.2.1 _ 200 (ratTrunc_nonpos _ (by norm_num))⟩

/-! ## Claim C3: rotation wrapping -/

/-- Counterexample to C3 as stated: one spin tick from rotation 350 with
velocity 20 stores rotation 370 in the App, outside `[0, 360)` (only the
canvas copy pushed through `set_rotation` is wrapped). -/
theorem claim_C3_counterexample :
    ¬(0 ≤ (update_spin_state ⟨350, 20, true, 0⟩).rotation ∧
      (update_spin_state ⟨350, 20, true, 0⟩).rotation < 360) := by
  have h : (update_spin_state ⟨350, 20, true, 0⟩).rotation = 370 := by
    unfold update_spin_state
    rw [if_pos (by simp)]
    dsimp only
    rw [if_neg (by norm_num)]
    norm_num
  rw [h]
  norm_num

/-- C3 (amended): after every spin tick that advances the wheel (spinning
flag set or positive velocity), the canvas's stored rotation — the value
`set_rotation` keeps, i.e. `App.rotation % 360` — lies in `[0, 360)`; the
App's own rotation accumulator is not wrapped. -/
theorem claim_C3 (w : Wheel) (h : (w.spinning || decide (0 < w.spin_velocity)) = true) :
    0 ≤ (update_spin_state w).canvas_rotation ∧
      (update_spin_state w).canvas_rotation < 360 := by
  unfold update_spin_state
  rw [if_pos h]
  dsimp only
  by_cases h2 : w.spin_velocity * (985 / 1000 : ℚ) < 1 / 20
  · rw [if_pos h2]
    exact ⟨qmod_nonneg _ _ (by norm_num), qmod_lt _ _ (by norm_num)⟩
  · rw [if_neg h2]
    exact ⟨qmod_nonneg _ _ (by norm_num), qmod_lt _ _ (by norm_num)⟩

/-- Witness for the amended C3 at the counterexample's tick. -/
theorem claim_C3_witness :
    0 ≤ (update_spin_state ⟨350, 20, true, 0⟩).canvas_rotation ∧
      (update_spin_state ⟨350, 20, true, 0⟩).canvas_rotation < 360 :=
  claim_C3 ⟨350, 20, true, 0⟩ (by simp)

/-! ## Positivity lemmas for the ledger operations -/

theorem AllPos_dictSet (d : List (String × Int)) (k : String) (v : Int)
    (hd : AllPos d) (hv : 0 < v) : AllPos (dictSet d k v) := by
  intro e he
  rcases mem_dictSet d k v e he with h | h
  · exact hd e h
  · rw [h]
    exact hv

theorem AllPos_dictPop (d : List (String × Int)) (k : String) (hd : AllPos d) :
    AllPos (dictPop d k) :=
  fun e he => hd e (mem_of_mem_dictPop d k e he)

theorem dictGetD_zero_nonneg (d : List (String × Int)) (k : String) (hd : AllPos d) :
    0 ≤ dictGetD d k 0 := by
  unfold dictGetD
  cases h : dictGet d k with
  | none => simp
  | some v =>
    have := hd (k, v) (mem_of_dictGet_eq_some d k v h)
    simpa using le_of_lt this

theorem consumeCounts1_allpos (counts : List (String × Int)) (previous : Option String)
    (hpos : AllPos counts) : AllPos (consumeCounts1 counts previous) := by
  unfold consumeCounts1
  cases previous with
  | none => exact hpos
  | some prev =>
    dsimp only
    cases hv : dictGet counts prev with
    | none => exact hpos
    | some v =>
      dsimp only
      by_cases hd : v - 1 ≤ 0
      · rw [if_pos hd]
        exact AllPos_dictPop _ _ hpos
      · rw [if_neg hd]
        exact AllPos_dictSet _ _ _ hpos (by omega)

theorem consume_vote_allpos (s : St) (u m : String) (hpos : AllPos s.vote_counts) :
    AllPos (consume_vote s u m).vote_counts := by
  unfold consume_vote
  by_cases h1 : s.voting_active
  · rw [if_neg (by simp [h1])]
    by_cases h2 : pyLower (pyStrip u) = ""
    · rw [if_pos h2]
      exact hpos
    · rw [if_neg h2]
      by_cases h3 : normalize_phrase m = ""
      · rw [if_pos h3]
        exact hpos
      · rw [if_neg h3]
        dsimp only
        by_cases h4 : dictGet s.user_votes (pyLower (pyStrip u)) =
            some ((find_matching_phrase s.vote_counts (normalize_phrase m) "").getD
              (normalize_phrase m))
        · rw [if_pos h4]
          exact hpos
        · rw [if_neg h4]
          dsimp only
          have hc1 : AllPos (consumeCounts1 s.vote_counts
              (dictGet s.user_votes (pyLower (pyStrip u)))) :=
            consumeCounts1_allpos _ _ hpos
          have hgd := dictGetD_zero_nonneg _
            ((find_matching_phrase s.vote_counts (normalize_phrase m) "").getD
              (normalize_phrase m)) hc1
          exact AllPos_dictSet _ _ _ hc1 (by omega)
  · rw [if_pos (by simp [Bool.eq_false_iff.mpr h1])]
    exact hpos

theorem AllPos_set_then_prune (d : List (String × Int)) (hd : AllPos d)
    (k : String) (x : Int) :
    AllPos (if dictGetD (dictSet d k x) k 0 ≤ 0 then dictPop (dictSet d k x) k
      else dictSet d k x) := by
  by_cases h : dictGetD (dictSet d k x) k 0 ≤ 0
  · rw [if_pos h]
    intro e he
    have hmem := List.mem_filter.mp he
    have hne : e.1 ≠ k := by simpa using hmem.2
    rcases mem_dictSet d k x e hmem.1 with h' | h'
    · exact hd e h'
    · exact absurd (by rw [h'] : e.1 = k) hne
  · rw [if_neg h]
    intro e he
    rcases mem_dictSet d k x e he with h' | h'
    · exact hd e h'
    · have hx : dictGetD (dictSet d k x) k 0 = x := by
        unfold dictGetD
        rw [dictGet_dictSet_self]
        rfl
      rw [h']
      simp only []
      omega

theorem add_or_update_segment_allpos (s : St) (rawPhrase rawVotes : String)
    (hpos : AllPos s.vote_counts) :
    AllPos (add_or_update_segment s rawPhrase rawVotes).vote_counts := by
  unfold add_or_update_segment
  by_cases h1 : normalize_phrase rawPhrase = ""
  · rw [if_pos h1]
    exact hpos
  · rw [if_neg h1]
    dsimp only
    by_cases h2 : (find_matching_phrase s.vote_counts (normalize_phrase rawPhrase) "").getD
        "" ≠ "" ∧
        (find_matching_phrase s.vote_counts (normalize_phrase rawPhrase) "").getD "" ≠
          normalize_phrase rawPhrase
    · rw [if_pos h2, if_pos h2]
      exact AllPos_set_then_prune _ hpos _ _
    · rw [if_neg h2, if_neg h2]
      exact AllPos_set_then_prune _ hpos _ _

theorem remove_selected_allpos (s : St) (selection : List String)
    (hpos : AllPos s.vote_counts) :
    AllPos (remove_selected s selection).vote_counts := by
  unfold remove_selected
  dsimp only
  induction selection generalizing s with
  | nil => exact hpos
  | cons p rest ih =>
    rw [List.foldl_cons]
    exact ih { s with vote_counts := dictPop s.vote_counts p } (AllPos_dictPop _ _ hpos)

theorem save_edit_allpos (s : St) (col : Nat) (phrase_old : String) (votes_old : Int)
    (rawNew : String) (hpos : AllPos s.vote_counts)
    (hold : col = 1 → dictGet s.vote_counts phrase_old = some votes_old) :
    AllPos (save_edit s col phrase_old votes_old rawNew).vote_counts := by
  unfold save_edit
  by_cases h1 : col = 1
  · rw [if_pos h1]
    dsimp only
    by_cases h2 : normalize_phrase (pyStrip rawNew) = ""
    · rw [if_pos h2]
      exact hpos
    · rw [if_neg h2]
      by_cases h3 : normalize_phrase (pyStrip rawNew) = phrase_old
      · rw [if_pos h3]
        exact hpos
      · rw [if_neg h3]
        dsimp only
        have hvold : 0 < votes_old :=
          hpos (phrase_old, votes_old) (mem_of_dictGet_eq_some _ _ _ (hold h1))
        have hc1 : AllPos (dictPop s.vote_counts phrase_old) := AllPos_dictPop _ _ hpos
        exact AllPos_dictSet _ _ _ hc1
          (lt_of_lt_of_le hvold (by
            have := dictGetD_zero_nonneg (dictPop s.vote_counts phrase_old)
              ((find_matching_phrase (dictPop s.vote_counts phrase_old)
                (normalize_phrase (pyStrip rawNew)) phrase_old).getD
                (normalize_phrase (pyStrip rawNew))) hc1
            omega))
  · rw [if_neg h1]
    by_cases h2 : col = 2
    · rw [if_pos h2]
      dsimp only
      by_cases h3 : (dictGet s.vote_counts phrase_old).isSome = true
      · rw [if_pos h3]
        by_cases h4 : pySafeInt (pyStrip rawNew) votes_old ≤ 0
        · rw [if_pos h4]
          exact AllPos_dictPop _ _ hpos
        · rw [if_neg h4]
          exact AllPos_dictSet _ _ _ hpos (by omega)
      · rw [if_neg h3]
        exact hpos
    · rw [if_neg h2]
      exact hpos

theorem importMerge_allpos (old : List (String × Int)) (acc : ImportAcc)
    (phrase : String) (votes : Int) (h : AllPos acc.imported) :
    AllPos (importMerge old acc phrase votes).imported := by
  unfold importMerge
  by_cases hc : phrase ≠ "" ∧ 0 < votes
  · rw [if_pos hc]
    have h0 := dictGetD_zero_nonneg acc.imported
      ((find_matching_phrase old phrase "").getD phrase) h
    have hv := hc.2
    exact AllPos_dictSet _ _ _ h (by omega)
  · rw [if_neg hc]
    exact h

theorem importLine_allpos (old : List (String × Int)) (acc : ImportAcc) (raw : String)
    (h : AllPos acc.imported) : AllPos (importLine old acc raw).imported := by
  unfold importLine
  by_cases h1 : pyStrip raw = "" || lineStartsHash (pyStrip raw)
  · rw [if_pos h1]
    exact h
  · rw [if_neg h1]
    dsimp only
    by_cases h2 : 3 ≤ ((splitTabs (pyStrip raw).data).map (fun w => (⟨w⟩ : String))).length ∧
        ((splitTabs (pyStrip raw).data).map (fun w => (⟨w⟩ : String))).headD "" = "SEGMENT"
    · rw [if_pos h2]
      exact importMerge_allpos _ _ _ _ h
    · rw [if_neg h2]
      by_cases h3 : 3 ≤ ((splitTabs (pyStrip raw).data).map (fun w => (⟨w⟩ : String))).length ∧
          ((splitTabs (pyStrip raw).data).map (fun w => (⟨w⟩ : String))).headD "" = "USERVOTE"
      · rw [if_pos h3]
        by_cases h4 : pyLower (pyStrip (((splitTabs (pyStrip raw).data).map (fun w => (⟨w⟩ : String))).getD 1 "")) ≠ "" ∧
            normalize_phrase (((splitTabs (pyStrip raw).data).map (fun w => (⟨w⟩ : String))).getD 2 "") ≠ ""
        · rw [if_pos h4]
          exact h
        · rw [if_neg h4]
          exact h
      · rw [if_neg h3]
        by_cases h5 : (pyStrip raw).data.contains '\t'
        · rw [if_pos h5]
          exact importMerge_allpos _ _ _ _ h
        · rw [if_neg h5]
          by_cases h6 : (pyStrip raw).data.contains ' '
          · rw [if_pos h6]
            exact importMerge_allpos _ _ _ _ h
          · rw [if_neg h6]
            exact h

theorem importFold_allpos (old : List (String × Int)) (fileLines : List String)
    (acc : ImportAcc) (h : AllPos acc.imported) :
    AllPos (fileLines.foldl (importLine old) acc).imported := by
  induction fileLines generalizing acc with
  | nil => exact h
  | cons raw rest ih =>
    rw [List.foldl_cons]
    exact ih _ (importLine_allpos old acc raw h)

theorem materialize_allpos (users : List (String × String))
    (cs : List (String × Int)) (h : AllPos cs) :
    AllPos (users.foldl
      (fun cs q => if (dictGet cs q.2).isSome then cs else dictSet cs q.2 1) cs) := by
  induction users generalizing cs with
  | nil => exact h
  | cons q rest ih =>
    rw [List.foldl_cons]
    by_cases hq : (dictGet cs q.2).isSome = true
    · rw [if_pos hq]
      exact ih cs h
    · rw [if_neg hq]
      exact ih _ (AllPos_dictSet _ _ _ h (by omega))

theorem import_segments_allpos (s : St) (fileLines : List String) :
    AllPos (import_segments s fileLines).vote_counts := by
  unfold import_segments
  apply materialize_allpos
  exact importFold_allpos s.vote_counts fileLines ⟨[], []⟩ (by intro e he; simp at he)

theorem clear_vote_allpos (s : St) : AllPos (clear_vote s).vote_counts := by
  intro e he
  simp [clear_vote] at he

/-! ## Claim C2: operation invariants -/

/-- Counterexample to C2 as stated: from a state satisfying both halves of
the invariant (positive tallies, no orphaned sender), `remove_selected`
deletes the phrase from `vote_counts` without touching `user_votes`,
leaving the sender `"a"` mapped to the removed phrase `"p"`. -/
theorem claim_C2_counterexample :
    AllPos (⟨true, 0, [("p", 1)], [("a", "p")]⟩ : St).vote_counts ∧
    OrphanFree ⟨true, 0, [("p", 1)], [("a", "p")]⟩ ∧
    ¬OrphanFree (remove_selected ⟨true, 0, [("p", 1)], [("a", "p")]⟩ ["p"]) := by
  refine ⟨?_, ?_, ?_⟩
  · unfold AllPos
    decide
  · unfold OrphanFree
    decide
  · unfold OrphanFree
    decide

/-- C2 (amended): every ledger-mutating operation — `consume_vote`,
`add_or_update_segment`, `remove_selected`, the table-cell edit handler
(whose displayed old count mirrors the tally map), `import_segments` and
`clear_vote` — preserves the positivity of all stored tallies; the
orphan-freedom half of the claimed invariant is, however, not preserved by
`remove_selected` (and the cell edit), as the counterexample shows. -/
theorem claim_C2 (s : St) (hpos : AllPos s.vote_counts) :
    (∀ u m, AllPos (consume_vote s u m).vote_counts) ∧
    (∀ rawPhrase rawVotes,
      AllPos (add_or_update_segment s rawPhrase rawVotes).vote_counts) ∧
    (∀ selection, AllPos (remove_selected s selection).vote_counts) ∧
    (∀ col phrase_old votes_old rawNew,
      (col = 1 → dictGet s.vote_counts phrase_old = some votes_old) →
      AllPos (save_edit s col phrase_old votes_old rawNew).vote_counts) ∧
    (∀ fileLines, AllPos (import_segments s fileLines).vote_counts) ∧
    AllPos (clear_vote s).vote_counts :=
  ⟨fun u m => consume_vote_allpos s u m hpos,
   fun rp rv => add_or_update_segment_allpos s rp rv hpos,
   fun sel => remove_selected_allpos s sel hpos,
   fun col po vo rn hold => save_edit_allpos s col po vo rn hpos hold,
   fun fl => import_segments_allpos s fl,
   clear_vote_allpos s⟩

/-- Witness for the amended C2 at a concrete state. -/
theorem claim_C2_witness :
    AllPos (consume_vote ⟨true, 0, [("p", 2)], [("a", "p")]⟩ "b" "q").vote_counts ∧
    AllPos (save_edit ⟨true, 0, [("p", 2)], [("a", "p")]⟩ 1 "p" 2 "rr").vote_counts ∧
    AllPos (clear_vote ⟨true, 0, [("p", 2)], [("a", "p")]⟩).vote_counts :=
  ⟨(claim_C2 ⟨true, 0, [("p", 2)], [("a", "p")]⟩ (by unfold AllPos; decide)).1 "b" "q",
   (claim_C2 ⟨true, 0, [("p", 2)], [("a", "p")]⟩
      (by unfold AllPos; decide)).2.2.2.1 1 "p" 2 "rr" (fun _ => by decide),
   (claim_C2 ⟨true, 0, [("p", 2)], [("a", "p")]⟩ (by unfold AllPos; decide)).2.2.2.2.2⟩

/-! ## Claim C1: import of user votes -/

/-- Counterexample to C1 as stated: importing a file whose `USERVOTE` line
references the phrase `"zzz"`, absent from the imported segments (`"a"` at
count 2), drops the sender mapping entirely and creates no `"zzz"` entry —
the materialise-at-1 loop runs after the filter and is therefore dead. -/
theorem claim_C1_counterexample :
    dictGet (import_segments initSt ["SEGMENT\ta\t2", "USERVOTE\tbob\tzzz"]).vote_counts
        "zzz" = none ∧
      dictGet (import_segments initSt ["SEGMENT\ta\t2", "USERVOTE\tbob\tzzz"]).user_votes
        "bob" = none := by
  constructor <;> decide

theorem materialize_noop (users : List (String × String)) (cs : List (String × Int))
    (h : ∀ q ∈ users, (dictGet cs q.2).isSome = true) :
    users.foldl
      (fun cs q => if (dictGet cs q.2).isSome then cs else dictSet cs q.2 1) cs = cs := by
  induction users with
  | nil => rfl
  | cons q rest ih =>
    rw [List.foldl_cons, if_pos (h q (List.mem_cons_self _ _))]
    exact ih (fun q' hq' => h q' (List.mem_cons_of_mem _ hq'))

/-- C1 (amended): after `import_segments`, every surviving sender mapping
references a phrase that is present in `vote_counts` with a positive count;
imported sender-votes whose phrase is absent from the merged segments are
discarded rather than materialised, so the final tally map is exactly the
merged import (the create-at-1 loop never fires). -/
theorem claim_C1 (s : St) (fileLines : List String) :
    (∀ q ∈ (import_segments s fileLines).user_votes,
      ∃ v, dictGet (import_segments s fileLines).vote_counts q.2 = some v ∧ 0 < v) ∧
    (import_segments s fileLines).vote_counts =
      (fileLines.foldl (importLine s.vote_counts) ⟨[], []⟩).imported := by
  have href : ∀ q ∈ (fileLines.foldl (importLine s.vote_counts) ⟨[], []⟩).iuv.filter
      (fun q => (dictGet (fileLines.foldl (importLine s.vote_counts) ⟨[], []⟩).imported
          q.2).isSome &&
        decide (0 < dictGetD (fileLines.foldl (importLine s.vote_counts) ⟨[], []⟩).imported
          q.2 0)),
      (dictGet (fileLines.foldl (importLine s.vote_counts) ⟨[], []⟩).imported q.2).isSome
          = true ∧
        0 < dictGetD (fileLines.foldl (importLine s.vote_counts) ⟨[], []⟩).imported q.2 0 := by
    intro q hq
    have hm := List.mem_filter.mp hq
    have hb := hm.2
    rw [Bool.and_eq_true] at hb
    exact ⟨hb.1, of_decide_eq_true hb.2⟩
  have hce : (import_segments s fileLines).vote_counts =
      (fileLines.foldl (importLine s.vote_counts) ⟨[], []⟩).imported :=
    materialize_noop _ _ (fun q hq => (href q hq).1)
  constructor
  · intro q hq
    have hq2 : q ∈ (fileLines.foldl (importLine s.vote_counts) ⟨[], []⟩).iuv.filter
        (fun q => (dictGet (fileLines.foldl (importLine s.vote_counts) ⟨[], []⟩).imported
            q.2).isSome &&
          decide (0 < dictGetD
            (fileLines.foldl (importLine s.vote_counts) ⟨[], []⟩).imported q.2 0)) := hq
    obtain ⟨hs, hpos⟩ := href q hq2
    obtain ⟨v, hv⟩ := Option.isSome_iff_exists.mp hs
    refine ⟨v, ?_, ?_⟩
    · rw [hce]
      exact hv
    · unfold dictGetD at hpos
      rw [hv] at hpos
      simpa using hpos
  · exact hce

/-- Witness for the amended C1: a surviving imported user vote references
the surviving phrase `"a"` with its positive count. -/
theorem claim_C1_witness :
    ∃ v, dictGet (import_segments initSt ["SEGMENT\ta\t2", "USERVOTE\tbob\ta"]).vote_counts
      "a" = some v ∧ 0 < v :=
  (claim_C1 initSt ["SEGMENT\ta\t2", "USERVOTE\tbob\ta"]).1 ("bob", "a") (by decide)

/-! ## Claim C8: idempotence of re-stating the same vote -/

theorem find_matching_phrase_ig_nil (d : List (String × Int)) (phrase : String)
    (h : phrase ≠ "") :
    find_matching_phrase d phrase "" = (dictKeys d).find? (matchPred phrase "") := by
  rw [find_matching_phrase, if_neg h, findMatchAux_eq_find?]

theorem matchPred_self (phrase : String) : matchPred phrase "" phrase = true := by
  simp [matchPred]

/-- After the ledger step of a consumed vote — whose key set is the old one,
possibly minus the retracted previous phrase, with the target then updated
in place or appended — re-resolving the same phrase still yields the same
target. -/
theorem find_after_step (counts counts1 : List (String × Int)) (phrase target : String)
    (hph : phrase ≠ "")
    (htar : target = (find_matching_phrase counts phrase "").getD phrase)
    (hkeys : dictKeys counts1 = dictKeys counts ∨
      ∃ prev, prev ≠ target ∧
        dictKeys counts1 = (dictKeys counts).filter (fun x => x ≠ prev)) :
    find_matching_phrase (dictSet counts1 target (dictGetD counts1 target 0 + 1)) phrase ""
      = some target := by
  cases hf : find_matching_phrase counts phrase "" with
  | some t =>
    have htt : target = t := by rw [htar, hf]; rfl
    have hfind : (dictKeys counts).find? (matchPred phrase "") = some t := by
      rw [← find_matching_phrase_ig_nil counts phrase hph]
      exact hf
    have hfind1 : (dictKeys counts1).find? (matchPred phrase "") = some t := by
      rcases hkeys with hk | ⟨prev, hpt, hk⟩
      · rw [hk]
        exact hfind
      · rw [hk]
        refine find?_filter_stable _ _ _ _ hfind ?_
        have : t ≠ prev := fun h' => hpt (by rw [htt, h'])
        simp [this]
    have ht1 : t ∈ dictKeys counts1 := List.mem_of_find?_eq_some hfind1
    have hkeys2 : dictKeys (dictSet counts1 target (dictGetD counts1 target 0 + 1)) =
        dictKeys counts1 := dictKeys_dictSet_mem _ _ _ (htt ▸ ht1)
    rw [find_matching_phrase_ig_nil _ _ hph, hkeys2, hfind1, htt]
  | none =>
    have htp : target = phrase := by rw [htar, hf]; rfl
    have hall : ∀ x ∈ dictKeys counts, matchPred phrase "" x = false := by
      have hn := List.find?_eq_none.mp (by
        rw [← find_matching_phrase_ig_nil counts phrase hph]
        exact hf)
      intro x hx
      exact Bool.eq_false_iff.mpr (hn x hx)
    have hsub : ∀ x ∈ dictKeys counts1, x ∈ dictKeys counts := by
      rcases hkeys with hk | ⟨prev, _, hk⟩
      · rw [hk]
        exact fun x hx => hx
      · rw [hk]
        exact fun x hx => List.mem_of_mem_filter hx
    have hnp : target ∉ dictKeys counts1 := by
      intro hmem
      have hfalse := hall target (hsub target hmem)
      rw [htp, matchPred_self] at hfalse
      exact Bool.true_eq_false.mp hfalse
    have hkeys2 : dictKeys (dictSet counts1 target (dictGetD counts1 target 0 + 1)) =
        dictKeys counts1 ++ [target] := dictKeys_dictSet_not_mem _ _ _ hnp
    rw [find_matching_phrase_ig_nil _ _ hph, hkeys2, List.find?_append]
    have h1 : (dictKeys counts1).find? (matchPred phrase "") = none :=
      List.find?_eq_none.mpr (fun x hx => by
        rw [hall x (hsub x hx)]
        simp)
    rw [h1, htp]
    simp [List.find?, matchPred_self]

/-- The main path of `consume_vote` written out explicitly. -/
theorem consume_vote_main (s : St) (username message : String)
    (h1 : s.voting_active = true)
    (h2 : ¬pyLower (pyStrip username) = "")
    (h3 : ¬normalize_phrase message = "")
    (h4 : ¬dictGet s.user_votes (pyLower (pyStrip username)) =
      some ((find_matching_phrase s.vote_counts (normalize_phrase message) "").getD
        (normalize_phrase message))) :
    consume_vote s username message = { s with
      vote_counts := dictSet
        (consumeCounts1 s.vote_counts
          (dictGet s.user_votes (pyLower (pyStrip username))))
        ((find_matching_phrase s.vote_counts (normalize_phrase message) "").getD
          (normalize_phrase message))
        (dictGetD
          (consumeCounts1 s.vote_counts
            (dictGet s.user_votes (pyLower (pyStrip username))))
          ((find_matching_phrase s.vote_counts (normalize_phrase message) "").getD
            (normalize_phrase message)) 0 + 1),
      user_votes := dictSet s.user_votes (pyLower (pyStrip username))
        ((find_matching_phrase s.vote_counts (normalize_phrase message) "").getD
          (normalize_phrase message)) } := by
  unfold consume_vote
  rw [if_neg (by simp [h1]), if_neg h2, if_neg h3, if_neg h4]

/-- C8: consuming the same chat vote twice in a row changes the ledger only
once — the second application is the identity, because the sender's current
phrase then already equals the freshly resolved target. -/
theorem claim_C8 (s : St) (username message : String) :
    consume_vote (consume_vote s username message) username message =
      consume_vote s username message := by
  by_cases h1 : s.voting_active
  · by_cases h2 : pyLower (pyStrip username) = ""
    · have hs : consume_vote s username message = s := by
        unfold consume_vote
        rw [if_neg (by simp [h1]), if_pos h2]
      rw [hs]
      exact hs
    · by_cases h3 : normalize_phrase message = ""
      · have hs : consume_vote s username message = s := by
          unfold consume_vote
          rw [if_neg (by simp [h1]), if_neg h2, if_pos h3]
        rw [hs]
        exact hs
      · by_cases h4 : dictGet s.user_votes (pyLower (pyStrip username)) =
            some ((find_matching_phrase s.vote_counts (normalize_phrase message) "").getD
              (normalize_phrase message))
        · have hs : consume_vote s username message = s := by
            unfold consume_vote
            rw [if_neg (by simp [h1]), if_neg h2, if_neg h3, if_pos h4]
          rw [hs]
          exact hs
        · have hs1 := consume_vote_main s username message h1 h2 h3 h4
          rw [hs1]
          have hkeys : dictKeys (consumeCounts1 s.vote_counts
                (dictGet s.user_votes (pyLower (pyStrip username)))) =
                dictKeys s.vote_counts ∨
              ∃ prev, prev ≠ ((find_matching_phrase s.vote_counts
                  (normalize_phrase message) "").getD (normalize_phrase message)) ∧
                dictKeys (consumeCounts1 s.vote_counts
                    (dictGet s.user_votes (pyLower (pyStrip username)))) =
                  (dictKeys s.vote_counts).filter (fun x => x ≠ prev) := by
            cases hprev : dictGet s.user_votes (pyLower (pyStrip username)) with
            | none => exact Or.inl rfl
            | some prev =>
              have hpt : prev ≠ ((find_matching_phrase s.vote_counts
                  (normalize_phrase message) "").getD (normalize_phrase message)) := by
                intro h'
                exact h4 (by rw [hprev, h'])
              unfold consumeCounts1
              dsimp only
              cases hv : dictGet s.vote_counts prev with
              | none => exact Or.inl rfl
              | some v =>
                dsimp only
                by_cases hd : v - 1 ≤ 0
                · rw [if_pos hd]
                  exact Or.inr ⟨prev, hpt, dictKeys_dictPop _ _⟩
                · rw [if_neg hd]
                  exact Or.inl (dictKeys_dictSet_mem _ _ _
                    (mem_keys_of_dictGet_eq_some _ _ _ hv))
          have htarget2 := find_after_step s.vote_counts
            (consumeCounts1 s.vote_counts
              (dictGet s.user_votes (pyLower (pyStrip username))))
            (normalize_phrase message)
            ((find_matching_phrase s.vote_counts (normalize_phrase message) "").getD
              (normalize_phrase message)) h3 rfl hkeys
          unfold consume_vote
          rw [if_neg (by simp [h1])]
          rw [if_neg h2, if_neg h3]
          rw [if_pos (by
            dsimp only
            rw [dictGet_dictSet_self, htarget2]
            rfl)]
  · have hs : consume_vote s username message = s := by
      unfold consume_vote
      rw [if_pos (by simp [Bool.eq_false_iff.mpr h1])]
    rw [hs]
    exact hs

/-- Witness: no hypothesis beyond universally quantified data, but shown at
a concrete re-vote anyway. -/
theorem claim_C8_witness :
    consume_vote (consume_vote ⟨true, 0, [], []⟩ "Bob" "dogs") "Bob" "dogs" =
      consume_vote ⟨true, 0, [], []⟩ "Bob" "dogs" :=
  claim_C8 ⟨true, 0, [], []⟩ "Bob" "dogs"

/-! ## Further dictionary lemmas (towards conservation) -/

theorem dictGet_dictPop_self {β : Type} (d : List (String × β)) (k : String) :
    dictGet (dictPop d k) k = none := by
  induction d with
  | nil => rfl
  | cons e rest ih =>
    obtain ⟨k1, v1⟩ := e
    by_cases he : k1 = k
    · rw [show dictPop ((k1, v1) :: rest) k = dictPop rest k from by
        simp [dictPop, List.filter_cons_of_neg, he]]
      exact ih
    · rw [show dictPop ((k1, v1) :: rest) k = (k1, v1) :: dictPop rest k from by
        simp [dictPop, List.filter_cons_of_pos, he]]
      simp [dictGet, he, ih]

theorem not_mem_keys_of_dictGet_eq_none {β : Type} (d : List (String × β)) (k : String)
    (h : dictGet d k = none) : k ∉ dictKeys d := by
  intro hmem
  have := (dictGet_isSome_iff_mem_keys d k).mpr hmem
  rw [h] at this
  simp at this

theorem dictGet_of_mem_nodup {β : Type} (d : List (String × β)) (k : String) (v : β)
    (hnd : (dictKeys d).Nodup) (hmem : (k, v) ∈ d) : dictGet d k = some v := by
  induction d with
  | nil => simp at hmem
  | cons e rest ih =>
    obtain ⟨k1, v1⟩ := e
    rw [List.mem_cons] at hmem
    have hnd' : (dictKeys rest).Nodup := (List.nodup_cons.mp hnd).2
    rcases hmem with hm | hm
    · injection hm with hk hv
      subst hk
      subst hv
      simp [dictGet]
    · have hk1 : k1 ≠ k := by
        intro h'
        have : k1 ∈ dictKeys rest := by
          rw [h']
          exact List.mem_map_of_mem Prod.fst hm
        exact (List.nodup_cons.mp hnd).1 this
      rw [dictGet, if_neg hk1]
      exact ih hnd' hm

theorem subset_keys_dictSet {β : Type} (d : List (String × β)) (k : String) (v : β)
    (x : String) (hx : x ∈ dictKeys d) : x ∈ dictKeys (dictSet d k v) := by
  by_cases hk : k ∈ dictKeys d
  · rw [dictKeys_dictSet_mem _ _ _ hk]
    exact hx
  · rw [dictKeys_dictSet_not_mem _ _ _ hk]
    exact List.mem_append_left _ hx

theorem mem_keys_dictSet_self {β : Type} (d : List (String × β)) (k : String) (v : β) :
    k ∈ dictKeys (dictSet d k v) :=
  mem_keys_of_dictGet_eq_some _ _ _ (dictGet_dictSet_self d k v)

theorem dictKeys_dictSet_nodup {β : Type} (d : List (String × β)) (k : String) (v : β)
    (h : (dictKeys d).Nodup) : (dictKeys (dictSet d k v)).Nodup := by
  by_cases hk : k ∈ dictKeys d
  · rw [dictKeys_dictSet_mem _ _ _ hk]
    exact h
  · rw [dictKeys_dictSet_not_mem _ _ _ hk]
    simp [List.nodup_append, h, hk]

theorem dictKeys_dictPop_nodup {β : Type} (d : List (String × β)) (k : String)
    (h : (dictKeys d).Nodup) : (dictKeys (dictPop d k)).Nodup := by
  rw [dictKeys_dictPop]
  exact h.filter _

theorem dictSet_eq_append {β : Type} (d : List (String × β)) (k : String) (v : β)
    (h : dictGet d k = none) : dictSet d k v = d ++ [(k, v)] := by
  induction d with
  | nil => rfl
  | cons e rest ih =>
    obtain ⟨k1, v1⟩ := e
    by_cases he : k1 = k
    · rw [dictGet, if_pos he] at h
      simp at h
    · rw [dictGet, if_neg he] at h
      simp [dictSet, he, ih h]

theorem dictSet_length_of_mem {β : Type} (d : List (String × β)) (k : String) (v : β)
    (h : k ∈ dictKeys d) : (dictSet d k v).length = d.length := by
  induction d with
  | nil => simp [dictKeys] at h
  | cons e rest ih =>
    obtain ⟨k1, v1⟩ := e
    by_cases he : k1 = k
    · simp [dictSet, he]
    · have hk : k ∈ dictKeys rest := by
        simp only [dictKeys, List.map_cons, List.mem_cons] at h
        exact h.resolve_left (fun h' => he h'.symm)
      simp [dictSet, he, ih hk]

/-! ## countUsers lemmas -/

theorem countUsers_cons (q : String × String) (users : List (String × String))
    (p : String) :
    countUsers (q :: users) p = (if q.2 = p then 1 else 0) + countUsers users p := by
  unfold countUsers
  rw [List.filter_cons]
  by_cases h : q.2 = p <;> simp [h] <;> push_cast <;> ring

theorem countUsers_nonneg (users : List (String × String)) (p : String) :
    0 ≤ countUsers users p := by
  unfold countUsers
  positivity

theorem countUsers_append (l1 l2 : List (String × String)) (p : String) :
    countUsers (l1 ++ l2) p = countUsers l1 p + countUsers l2 p := by
  unfold countUsers
  rw [List.filter_append, List.length_append]
  push_cast
  ring

theorem countUsers_one_le_of_mem (users : List (String × String))
    (q : String × String) (p : String) (hq : q ∈ users) (hp : q.2 = p) :
    1 ≤ countUsers users p := by
  unfold countUsers
  have hmem : q ∈ users.filter (fun r => r.2 = p) :=
    List.mem_filter.mpr ⟨hq, by simp [hp]⟩
  have hpos : 0 < (users.filter (fun r => r.2 = p)).length :=
    List.length_pos.mpr (List.ne_nil_of_mem hmem)
  exact_mod_cast hpos

theorem countUsers_eq_zero (users : List (String × String)) (p : String)
    (h : ∀ q ∈ users, q.2 ≠ p) : countUsers users p = 0 := by
  unfold countUsers
  rw [List.filter_eq_nil.mpr (fun q hq => by simp [h q hq])]
  rfl

theorem countUsers_two_le (users : List (String × String)) (p : String)
    (q r : String × String) (hq : q ∈ users) (hqp : q.2 = p)
    (hr : r ∈ users) (hrp : r.2 = p) (hne : q ≠ r) :
    2 ≤ countUsers users p := by
  unfold countUsers
  have hqm : q ∈ users.filter (fun x => x.2 = p) :=
    List.mem_filter.mpr ⟨hq, by simp [hqp]⟩
  have hrm : r ∈ users.filter (fun x => x.2 = p) :=
    List.mem_filter.mpr ⟨hr, by simp [hrp]⟩
  have h2 : 2 ≤ (users.filter (fun x => x.2 = p)).length := by
    rcases hl : users.filter (fun x => x.2 = p) with _ | ⟨a, _ | ⟨b, tl⟩⟩
    · rw [hl] at hqm
      simp at hqm
    · rw [hl] at hqm hrm
      simp only [List.mem_singleton] at hqm hrm
      exact absurd (hqm.trans hrm.symm) hne
    · rw [hl]
      simp
  exact_mod_cast h2

theorem countUsers_dictSet_append (users : List (String × String)) (u t p : String)
    (hu : dictGet users u = none) :
    countUsers (dictSet users u t) p =
      countUsers users p + (if t = p then 1 else 0) := by
  rw [dictSet_eq_append users u t hu, countUsers_append]
  congr 1
  rw [show countUsers [(u, t)] p = (if t = p then 1 else 0) + countUsers [] p from
    countUsers_cons (u, t) [] p]
  simp [countUsers]

theorem countUsers_dictSet_update (users : List (String × String)) (u prev t p : String)
    (hu : dictGet users u = some prev) :
    countUsers (dictSet users u t) p =
      countUsers users p - (if prev = p then 1 else 0) + (if t = p then 1 else 0) := by
  induction users with
  | nil => simp [dictGet] at hu
  | cons q rest ih =>
    obtain ⟨k1, v1⟩ := q
    by_cases he : k1 = u
    · rw [dictGet, if_pos he] at hu
      injection hu with hv
      rw [show dictSet ((k1, v1) :: rest) u t = (u, t) :: rest from by simp [dictSet, he]]
      rw [countUsers_cons, countUsers_cons]
      rw [hv]
      by_cases h1 : prev = p <;> by_cases h2 : t = p <;> simp [h1, h2] <;> ring
    · rw [dictGet, if_neg he] at hu
      rw [show dictSet ((k1, v1) :: rest) u t = (k1, v1) :: dictSet rest u t from by
        simp [dictSet, he]]
      rw [countUsers_cons, countUsers_cons, ih hu]
      ring

/-! ## The ledger invariant is preserved by consume_vote -/

theorem LedgerInv_applyVote (s : St) (U T : String)
    (h : LedgerInv s) (hneq : ¬dictGet s.user_votes U = some T) :
    LedgerInv { s with
      vote_counts := dictSet (consumeCounts1 s.vote_counts (dictGet s.user_votes U)) T
        (dictGetD (consumeCounts1 s.vote_counts (dictGet s.user_votes U)) T 0 + 1),
      user_votes := dictSet s.user_votes U T } := by
  obtain ⟨hndC, hndU, horph, hcnt⟩ := h
  unfold LedgerInv
  dsimp only
  cases hprev : dictGet s.user_votes U with
  | none =>
    have hC1 : consumeCounts1 s.vote_counts none = s.vote_counts := rfl
    rw [hC1]
    have hcu : ∀ p, countUsers (dictSet s.user_votes U T) p =
        countUsers s.user_votes p + (if T = p then 1 else 0) :=
      fun p => countUsers_dictSet_append s.user_votes U T p hprev
    refine ⟨dictKeys_dictSet_nodup _ _ _ hndC, dictKeys_dictSet_nodup _ _ _ hndU,
      ?_, ?_⟩
    · intro q hq
      rcases mem_dictSet _ _ _ _ hq with hq' | hq'
      · exact subset_keys_dictSet _ _ _ _ (horph q hq')
      · rw [hq']
        exact mem_keys_dictSet_self _ _ _
    · intro p v hv
      rw [hcu p]
      by_cases hpT : p = T
      · subst hpT
        rw [dictGet_dictSet_self] at hv
        injection hv with hv'
        cases hgt : dictGet s.vote_counts p with
        | some w =>
          obtain ⟨hwc, hw1⟩ := hcnt p w hgt
          have hgd : dictGetD s.vote_counts p 0 = w := by
            unfold dictGetD
            rw [hgt]
            rfl
          rw [← hv', hgd, hwc]
          simp
          omega
        | none =>
          have hz : countUsers s.user_votes p = 0 :=
            countUsers_eq_zero _ _ (fun q hq hq2 =>
              not_mem_keys_of_dictGet_eq_none _ _ hgt (hq2 ▸ horph q hq))
          have hgd : dictGetD s.vote_counts p 0 = 0 := by
            unfold dictGetD
            rw [hgt]
            rfl
          rw [← hv', hgd, hz]
          simp
      · rw [dictGet_dictSet_ne _ _ _ _ hpT] at hv
        obtain ⟨hvc, hv1⟩ := hcnt p v hv
        have hTp : ¬T = p := fun h' => hpT h'.symm
        rw [if_neg hTp]
        exact ⟨by rw [hvc]; ring, hv1⟩
  | some prev =>
    have hpT : prev ≠ T := fun h' => hneq (by rw [hprev, h'])
    have hmemU : (U, prev) ∈ s.user_votes := mem_of_dictGet_eq_some _ _ _ hprev
    have hprevKeys : prev ∈ dictKeys s.vote_counts := horph (U, prev) hmemU
    obtain ⟨vp, hvp⟩ : ∃ vp, dictGet s.vote_counts prev = some vp :=
      Option.isSome_iff_exists.mp ((dictGet_isSome_iff_mem_keys _ _).mpr hprevKeys)
    obtain ⟨hvpc, hvp1⟩ := hcnt prev vp hvp
    have hcu : ∀ p, countUsers (dictSet s.user_votes U T) p =
        countUsers s.user_votes p - (if prev = p then 1 else 0) +
          (if T = p then 1 else 0) :=
      fun p => countUsers_dictSet_update s.user_votes U prev T p hprev
    have hC1 : consumeCounts1 s.vote_counts (some prev) =
        (if vp - 1 ≤ 0 then dictPop s.vote_counts prev
          else dictSet s.vote_counts prev (vp - 1)) := by
      unfold consumeCounts1
      dsimp only
      rw [hvp]
    rw [hC1]
    have hndU2 : (dictKeys (dictSet s.user_votes U T)).Nodup :=
      dictKeys_dictSet_nodup _ _ _ hndU
    by_cases hd : vp - 1 ≤ 0
    · rw [if_pos hd]
      have hvp1' : vp = 1 := by omega
      refine ⟨dictKeys_dictSet_nodup _ _ _ (dictKeys_dictPop_nodup _ _ hndC), hndU2,
        ?_, ?_⟩
      · intro q hq
        obtain ⟨q1, q2⟩ := q
        rcases mem_dictSet _ _ _ _ hq with hq' | hq'
        · by_cases hq2 : q2 = prev
          · exfalso
            subst hq2
            by_cases hq1 : q1 = U
            · subst hq1
              have := dictGet_of_mem_nodup _ q1 q2 hndU2 hq
              rw [dictGet_dictSet_self] at this
              injection this with this'
              exact hpT this'.symm
            · have h2le := countUsers_two_le s.user_votes q2 (q1, q2) (U, q2)
                hq' rfl hmemU rfl (by simp [hq1])
              omega
          · have h0 : q2 ∈ dictKeys s.vote_counts := horph (q1, q2) hq'
            have h1 : q2 ∈ dictKeys (dictPop s.vote_counts prev) := by
              rw [dictKeys_dictPop]
              exact List.mem_filter.mpr ⟨h0, by simp [hq2]⟩
            exact subset_keys_dictSet _ _ _ _ h1
        · injection hq' with hq1 hq2
          subst hq2
          exact mem_keys_dictSet_self _ _ _
      · intro p v hv
        rw [hcu p]
        by_cases hpT2 : p = T
        · subst hpT2
          rw [dictGet_dictSet_self] at hv
          injection hv with hv'
          have hpop : dictGet (dictPop s.vote_counts prev) p = dictGet s.vote_counts p :=
            dictGet_dictPop_ne _ _ _ (fun h' => hpT h'.symm)
          have hprevp : ¬prev = p := fun h' => hpT h'
          rw [if_neg hprevp, if_pos rfl]
          cases hgt : dictGet s.vote_counts p with
          | some w =>
            obtain ⟨hwc, hw1⟩ := hcnt p w hgt
            have hgd : dictGetD (dictPop s.vote_counts prev) p 0 = w := by
              unfold dictGetD
              rw [hpop, hgt]
              rfl
            rw [← hv', hgd, hwc]
            constructor
            · ring
            · omega
          | none =>
            have hz : countUsers s.user_votes p = 0 :=
              countUsers_eq_zero _ _ (fun q hq hq2 =>
                not_mem_keys_of_dictGet_eq_none _ _ hgt (hq2 ▸ horph q hq))
            have hgd : dictGetD (dictPop s.vote_counts prev) p 0 = 0 := by
              unfold dictGetD
              rw [hpop, hgt]
              rfl
            rw [← hv', hgd, hz]
            constructor
            · ring
            · omega
        · rw [dictGet_dictSet_ne _ _ _ _ hpT2] at hv
          by_cases hpprev : p = prev
          · subst hpprev
            rw [dictGet_dictPop_self] at hv
            simp at hv
          · rw [dictGet_dictPop_ne _ _ _ hpprev] at hv
            obtain ⟨hvc, hv1⟩ := hcnt p v hv
            have h1 : ¬prev = p := fun h' => hpprev h'.symm
            have h2 : ¬T = p := fun h' => hpT2 h'.symm
            rw [if_neg h1, if_neg h2]
            exact ⟨by rw [hvc]; ring, hv1⟩
    · rw [if_neg hd]
      refine ⟨dictKeys_dictSet_nodup _ _ _ (dictKeys_dictSet_nodup _ _ _ hndC), hndU2,
        ?_, ?_⟩
      · intro q hq
        rcases mem_dictSet _ _ _ _ hq with hq' | hq'
        · exact subset_keys_dictSet _ _ _ _
            (subset_keys_dictSet _ _ _ _ (horph q hq'))
        · rw [hq']
          exact mem_keys_dictSet_self _ _ _
      · intro p v hv
        rw [hcu p]
        by_cases hpT2 : p = T
        · subst hpT2
          rw [dictGet_dictSet_self] at hv
          injection hv with hv'
          have hset : dictGet (dictSet s.vote_counts prev (vp - 1)) p =
              dictGet s.vote_counts p :=
            dictGet_dictSet_ne _ _ _ _ (fun h' => hpT h'.symm)
          have hprevp : ¬prev = p := fun h' => hpT h'
          rw [if_neg hprevp, if_pos rfl]
          cases hgt : dictGet s.vote_counts p with
          | some w =>
            obtain ⟨hwc, hw1⟩ := hcnt p w hgt
            have hgd : dictGetD (dictSet s.vote_counts prev (vp - 1)) p 0 = w := by
              unfold dictGetD
              rw [hset, hgt]
              rfl
            rw [← hv', hgd, hwc]
            constructor
            · ring
            · omega
          | none =>
            have hz : countUsers s.user_votes p = 0 :=
              countUsers_eq_zero _ _ (fun q hq hq2 =>
                not_mem_keys_of_dictGet_eq_none _ _ hgt (hq2 ▸ horph q hq))
            have hgd : dictGetD (dictSet s.vote_counts prev (vp - 1)) p 0 = 0 := by
              unfold dictGetD
              rw [hset, hgt]
              rfl
            rw [← hv', hgd, hz]
            constructor
            · ring
            · omega
        · rw [dictGet_dictSet_ne _ _ _ _ hpT2] at hv
          by_cases hpprev : p = prev
          · subst hpprev
            rw [dictGet_dictSet_self] at hv
            injection hv with hv'
            have h2 : ¬T = p := fun h' => hpT2 h'.symm
            rw [if_pos rfl, if_neg h2]
            constructor
            · rw [← hv', hvpc]
              ring
            · omega
          · rw [dictGet_dictSet_ne _ _ _ _ hpprev] at hv
            obtain ⟨hvc, hv1⟩ := hcnt p v hv
            have h1 : ¬prev = p := fun h' => hpprev h'.symm
            have h2 : ¬T = p := fun h' => hpT2 h'.symm
            rw [if_neg h1, if_neg h2]
            exact ⟨by rw [hvc]; ring, hv1⟩

theorem LedgerInv_consume (s : St) (u m : String) (h : LedgerInv s) :
    LedgerInv (consume_vote s u m) := by
  by_cases h1 : s.voting_active
  · by_cases h2 : pyLower (pyStrip u) = ""
    · rw [show consume_vote s u m = s from by
        unfold consume_vote
        rw [if_neg (by simp [h1]), if_pos h2]]
      exact h
    · by_cases h3 : normalize_phrase m = ""
      · rw [show consume_vote s u m = s from by
          unfold consume_vote
          rw [if_neg (by simp [h1]), if_neg h2, if_pos h3]]
        exact h
      · by_cases h4 : dictGet s.user_votes (pyLower (pyStrip u)) =
            some ((find_matching_phrase s.vote_counts (normalize_phrase m) "").getD
              (normalize_phrase m))
        · rw [show consume_vote s u m = s from by
            unfold consume_vote
            rw [if_neg (by simp [h1]), if_neg h2, if_neg h3, if_pos h4]]
          exact h
        · rw [consume_vote_main s u m h1 h2 h3 h4]
          exact LedgerInv_applyVote s _ _ h h4
  · rw [show consume_vote s u m = s from by
      unfold consume_vote
      rw [if_pos (by simp [Bool.eq_false_iff.mpr h1])]]
    exact h

/-! ## Summing the invariant: conservation -/

theorem sum_map_add_pointwise (l : List String) (f g : String → Int) :
    (l.map (fun x => f x + g x)).sum = (l.map f).sum + (l.map g).sum := by
  induction l with
  | nil => simp
  | cons x xs ih =>
    simp only [List.map_cons, List.sum_cons, ih]
    ring

theorem sum_indicator_nodup (l : List String) (x : String) (hnd : l.Nodup)
    (hx : x ∈ l) :
    (l.map (fun p => if x = p then (1 : Int) else 0)).sum = 1 := by
  induction l with
  | nil => simp at hx
  | cons y ys ih =>
    obtain ⟨hy, hnd'⟩ := List.nodup_cons.mp hnd
    rcases List.mem_cons.mp hx with hx' | hx'
    · subst hx'
      simp only [List.map_cons, List.sum_cons, if_pos rfl]
      have hz : (ys.map (fun p => if x = p then (1 : Int) else 0)).sum = 0 := by
        apply List.sum_eq_zero
        intro a ha
        obtain ⟨p, hp, hpa⟩ := List.mem_map.mp ha
        rw [← hpa, if_neg (fun h' => hy (by rw [h']; exact hp))]
      rw [hz]
      norm_num
    · have hxy : ¬x = y := fun h' => hy (by rw [← h']; exact hx')
      simp only [List.map_cons, List.sum_cons, if_neg hxy, ih hnd' hx']
      norm_num

theorem sum_countUsers_partition (keys : List String) (users : List (String × String))
    (hnd : keys.Nodup) (hall : ∀ q ∈ users, q.2 ∈ keys) :
    (keys.map (countUsers users)).sum = (users.length : Int) := by
  induction users with
  | nil =>
    have hz : (keys.map (countUsers [])).sum = 0 := by
      apply List.sum_eq_zero
      intro a ha
      obtain ⟨p, _, hpa⟩ := List.mem_map.mp ha
      rw [← hpa]
      rfl
    simp [hz]
  | cons q rest ih =>
    have hmap : keys.map (countUsers (q :: rest)) =
        keys.map (fun p => (if q.2 = p then (1 : Int) else 0) + countUsers rest p) :=
      List.map_congr_left (fun p _ => countUsers_cons q rest p)
    rw [hmap, sum_map_add_pointwise,
      sum_indicator_nodup keys q.2 hnd (hall q (List.mem_cons_self _ _)),
      ih (fun r hr => hall r (List.mem_cons_of_mem _ hr))]
    simp only [List.length_cons]
    push_cast
    ring

theorem sumCounts_of_LedgerInv (s : St) (h : LedgerInv s) :
    sumCounts s.vote_counts = (s.user_votes.length : Int) := by
  obtain ⟨hndC, _, horph, hcnt⟩ := h
  have h1 : s.vote_counts.map Prod.snd =
      s.vote_counts.map (fun e => countUsers s.user_votes e.1) := by
    apply List.map_congr_left
    intro e he
    have hget : dictGet s.vote_counts e.1 = some e.2 :=
      dictGet_of_mem_nodup _ _ _ hndC (by rwa [Prod.mk.eta])
    exact (hcnt e.1 e.2 hget).1
  have h2 : s.vote_counts.map (fun e => countUsers s.user_votes e.1) =
      (dictKeys s.vote_counts).map (countUsers s.user_votes) := by
    unfold dictKeys
    rw [List.map_map]
    rfl
  unfold sumCounts
  rw [h1, h2]
  exact sum_countUsers_partition _ _ hndC horph

/-! ## Claim C4: conservation -/

/-- C4: starting from the empty ledger with voting active, after any finite
sequence of chat votes the sum of all tallies equals the number of senders
with an entry — and the sender keys are distinct, so that number counts
distinct senders. -/
theorem claim_C4 (evs : List (String × String)) :
    sumCounts ((evs.foldl (fun s e => consume_vote s e.1 e.2)
        { initSt with voting_active := true }).vote_counts) =
      (((evs.foldl (fun s e => consume_vote s e.1 e.2)
        { initSt with voting_active := true }).user_votes.length : Int)) ∧
    (dictKeys ((evs.foldl (fun s e => consume_vote s e.1 e.2)
        { initSt with voting_active := true }).user_votes)).Nodup := by
  have hstep : ∀ (l : List (String × String)) (s : St), LedgerInv s →
      LedgerInv (l.foldl (fun s e => consume_vote s e.1 e.2) s) := by
    intro l
    induction l with
    | nil => exact fun s hs => hs
    | cons e rest ih =>
      intro s hs
      rw [List.foldl_cons]
      exact ih _ (LedgerInv_consume _ _ _ hs)
  have hbase : LedgerInv { initSt with voting_active := true } := by
    refine ⟨?_, ?_, ?_, ?_⟩
    · simp [initSt, dictKeys]
    · simp [initSt, dictKeys]
    · intro q hq
      simp [initSt] at hq
    · intro p v hv
      simp [initSt, dictGet] at hv
  have hinv := hstep evs _ hbase
  exact ⟨sumCounts_of_LedgerInv _ hinv, hinv.2.1⟩

/-- Witness-style instance of C4 at a concrete vote sequence (the theorem
itself has no hypotheses). -/
theorem claim_C4_witness :
    sumCounts (([("A", "cats"), ("B", "cats"), ("A", "dogs")].foldl
        (fun s e => consume_vote s e.1 e.2)
        { initSt with voting_active := true }).vote_counts) =
      ((([("A", "cats"), ("B", "cats"), ("A", "dogs")].foldl
        (fun s e => consume_vote s e.1 e.2)
        { initSt with voting_active := true }).user_votes.length : Int)) :=
  (claim_C4 [("A", "cats"), ("B", "cats"), ("A", "dogs")]).1

/-! ## Claim C6: pointer resolution -/

theorem cumAngle_zero (entries : List (String × Int)) (total : Int) :
    cumAngle entries total 0 = 0 := by
  simp [cumAngle, partialSum]

theorem partialSum_cons_succ (phrase : String) (votes : Int)
    (rest : List (String × Int)) (i : Nat) :
    partialSum ((phrase, votes) :: rest) (i + 1) = votes + partialSum rest i := by
  simp [partialSum, List.take_succ_cons]

theorem cumAngle_cons_succ (phrase : String) (votes : Int)
    (rest : List (String × Int)) (total : Int) (i : Nat) :
    cumAngle ((phrase, votes) :: rest) total (i + 1) =
      360 * ((votes : ℚ) / (total : ℚ)) + cumAngle rest total i := by
  unfold cumAngle
  rw [partialSum_cons_succ]
  push_cast
  ring

theorem cumAngle_length (entries : List (String × Int)) (total : Int)
    (htot : total = sumCounts entries) (hpos : 0 < total) :
    cumAngle entries total entries.length = 360 := by
  unfold cumAngle
  have h1 : partialSum entries entries.length = sumCounts entries := by
    unfold partialSum sumCounts
    rw [List.take_length]
  rw [h1, ← htot]
  have h2 : ((total : ℤ) : ℚ) ≠ 0 := by
    exact_mod_cast ne_of_gt hpos
  field_simp

theorem exists_cross (c : Nat → ℚ) (wa : ℚ) :
    ∀ n : Nat, c 0 ≤ wa → wa < c n → ∃ i, i < n ∧ c i ≤ wa ∧ wa < c (i + 1)
  | 0 => fun h0 hn => absurd hn (not_lt.mpr h0)
  | n + 1 => fun h0 hn => by
    by_cases h : wa < c n
    · obtain ⟨i, hi, h1, h2⟩ := exists_cross c wa n h0 h
      exact ⟨i, Nat.lt_succ_of_lt hi, h1, h2⟩
    · exact ⟨n, Nat.lt_succ_self n, not_lt.mp h, hn⟩

theorem pdLoop_phrase_eq (users : List (String × String)) (total : Int) (wa : ℚ) :
    ∀ (entries : List (String × Int)) (running : ℚ),
    (pdLoop users total wa entries running).map Prod.fst =
      ((List.range entries.length).find? (fun i =>
        decide (running + cumAngle entries total i ≤ wa ∧
          wa < running + cumAngle entries total (i + 1)))).map
        (fun i => (entries.getD i ("", 0)).1) := by
  intro entries
  induction entries with
  | nil =>
    intro running
    simp [pdLoop]
  | cons e rest ih =>
    intro running
    obtain ⟨phrase, votes⟩ := e
    have hhead : running + cumAngle ((phrase, votes) :: rest) total 0 = running := by
      rw [cumAngle_zero]
      ring
    have hone : running + cumAngle ((phrase, votes) :: rest) total 1 =
        running + 360 * ((votes : ℚ) / (total : ℚ)) := by
      rw [show (1 : Nat) = 0 + 1 from rfl, cumAngle_cons_succ, cumAngle_zero]
      ring
    rw [List.length_cons, List.range_succ_eq_map]
    by_cases hc : running ≤ wa ∧ wa < running + 360 * ((votes : ℚ) / (total : ℚ))
    · rw [List.find?_cons_of_pos _ (by
        rw [decide_eq_true_eq, hhead]
        rw [show (0 + 1 : Nat) = 1 from rfl, hone]
        exact hc)]
      simp only [pdLoop, if_pos hc]
      by_cases hs : voterSlots users phrase votes = []
      · rw [if_pos hs]
        rfl
      · rw [if_neg hs]
        rfl
    · rw [List.find?_cons_of_neg _ (by
        rw [decide_eq_true_eq, hhead]
        rw [show (0 + 1 : Nat) = 1 from rfl, hone]
        exact hc)]
      simp only [pdLoop, if_neg hc]
      rw [ih (running + 360 * ((votes : ℚ) / (total : ℚ)))]
      rw [List.find?_map, Option.map_map]
      have hpred : ((fun i => decide
            (running + cumAngle ((phrase, votes) :: rest) total i ≤ wa ∧
              wa < running + cumAngle ((phrase, votes) :: rest) total (i + 1))) ∘
            Nat.succ) =
          (fun i => decide
            (running + 360 * ((votes : ℚ) / (total : ℚ)) + cumAngle rest total i ≤ wa ∧
              wa < running + 360 * ((votes : ℚ) / (total : ℚ)) +
                cumAngle rest total (i + 1))) := by
        funext i
        have e1 : running + cumAngle ((phrase, votes) :: rest) total (i + 1) =
            running + 360 * ((votes : ℚ) / (total : ℚ)) + cumAngle rest total i := by
          rw [cumAngle_cons_succ]
          ring
        have e2 : running + cumAngle ((phrase, votes) :: rest) total (i + 1 + 1) =
            running + 360 * ((votes : ℚ) / (total : ℚ)) + cumAngle rest total (i + 1) := by
          rw [cumAngle_cons_succ]
          ring
        show decide (running + cumAngle ((phrase, votes) :: rest) total (i + 1) ≤ wa ∧
            wa < running + cumAngle ((phrase, votes) :: rest) total (i + 1 + 1)) = _
        rw [e1, e2]
      rw [hpred]
      congr 1

theorem pointer_core (users : List (String × String)) (top : List (String × Int))
    (total : Int) (wa : ℚ)
    (htotal : total = sumCounts top) (hpos : 0 < total)
    (hwa0 : 0 ≤ wa) (hwa1 : wa < 360) :
    specResolvePhrase top total wa =
      some ((match pdLoop users total wa top 0 with
        | some r => r
        | none => ((dictKeys top).headD "", "voted by: -")).1) := by
  have hcn : cumAngle top total top.length = 360 := cumAngle_length _ _ htotal hpos
  obtain ⟨j, hj, hcle, hclt⟩ := exists_cross (cumAngle top total) wa top.length
    (by rw [cumAngle_zero]; exact hwa0) (by rw [hcn]; exact hwa1)
  have hsome : ((List.range top.length).find? (fun i =>
      decide (cumAngle top total i ≤ wa ∧ wa < cumAngle top total (i + 1)))).isSome :=
    List.find?_isSome.mpr ⟨j, List.mem_range.mpr hj, by
      rw [decide_eq_true_eq]
      exact ⟨hcle, hclt⟩⟩
  obtain ⟨j', hj'⟩ := Option.isSome_iff_exists.mp hsome
  have hloop := pdLoop_phrase_eq users total wa top 0
  have hzero : (fun i => decide ((0 : ℚ) + cumAngle top total i ≤ wa ∧
        wa < 0 + cumAngle top total (i + 1))) =
      (fun i => decide (cumAngle top total i ≤ wa ∧ wa < cumAngle top total (i + 1))) := by
    funext i
    rw [zero_add, zero_add]
  rw [hzero, hj'] at hloop
  cases hpd : pdLoop users total wa top 0 with
  | none =>
    rw [hpd] at hloop
    simp at hloop
  | some pair =>
    rw [hpd] at hloop
    have hp1 : pair.1 = (top.getD j' ("", 0)).1 := by simpa using hloop
    unfold specResolvePhrase
    rw [hj']
    simp [hp1]

/-- C6: with a positive total weight, the phrase reported by
`pointer_details` is exactly the phrase of the (unique first) top-K entry
whose cumulative half-open interval contains
`wheelAngle = (90 - rotation mod 360) mod 360`; in particular, for the view
`[("x", 3), ("y", 1)]`, a wheel angle of 0 resolves to `"x"` and a wheel
angle of 300 (rotation 150) resolves to `"y"`. -/
theorem claim_C6 :
    (∀ (vote_counts : List (String × Int)) (users : List (String × String))
        (K : Nat) (rotation : ℚ),
      0 < sumCounts (get_top_votes vote_counts K) →
      specResolvePhrase (get_top_votes vote_counts K)
          (sumCounts (get_top_votes vote_counts K))
          (qmod (90 - qmod rotation 360) 360) =
        some ((pointer_details vote_counts users K rotation).1)) ∧
    (pointer_details [("x", 3), ("y", 1)] [] 10 90).1 = "x" ∧
    (pointer_details [("x", 3), ("y", 1)] [] 10 150).1 = "y" := by
  have hgen : ∀ (vote_counts : List (String × Int)) (users : List (String × String))
      (K : Nat) (rotation : ℚ),
      0 < sumCounts (get_top_votes vote_counts K) →
      specResolvePhrase (get_top_votes vote_counts K)
          (sumCounts (get_top_votes vote_counts K))
          (qmod (90 - qmod rotation 360) 360) =
        some ((pointer_details vote_counts users K rotation).1) := by
    intro vote_counts users K rotation hpos
    unfold pointer_details
    rw [if_neg (not_le.mpr hpos)]
    exact pointer_core users _ _ _ rfl hpos (qmod_nonneg _ _ (by norm_num))
      (qmod_lt _ _ (by norm_num))
  have hwa90 : qmod (90 - qmod (90 : ℚ) 360) 360 = 0 := by
    rw [show qmod (90 : ℚ) 360 = 90 from by rw [qmod_eq_floor]; norm_num]
    rw [show ((90 : ℚ) - 90) = 0 from by norm_num]
    rw [qmod_eq_floor]
    norm_num
  have hwa150 : qmod (90 - qmod (150 : ℚ) 360) 360 = 300 := by
    rw [show qmod (150 : ℚ) 360 = 150 from by rw [qmod_eq_floor]; norm_num]
    rw [show ((90 : ℚ) - 150) = -60 from by norm_num]
    rw [qmod_eq_floor]
    norm_num
  have hc0 : cumAngle [("x", 3), ("y", 1)] 4 0 = 0 := cumAngle_zero _ _
  have hc1 : cumAngle [("x", 3), ("y", 1)] 4 1 = 270 := by
    simp [cumAngle, partialSum]
    norm_num
  have hc2 : cumAngle [("x", 3), ("y", 1)] 4 2 = 360 := by
    simp [cumAngle, partialSum]
  refine ⟨hgen, ?_, ?_⟩
  · have h1 := hgen [("x", 3), ("y", 1)] [] 10 90 (by decide)
    rw [hwa90] at h1
    have hspec : specResolvePhrase (get_top_votes [("x", 3), ("y", 1)] 10)
        (sumCounts (get_top_votes [("x", 3), ("y", 1)] 10)) (0 : ℚ) = some "x" := by
      show specResolvePhrase [("x", 3), ("y", 1)] 4 (0 : ℚ) = some "x"
      unfold specResolvePhrase
      rw [show List.range ([("x", 3), ("y", 1)] : List (String × Int)).length = [0, 1]
        from rfl]
      rw [List.find?_cons_of_pos _ (by
        rw [decide_eq_true_eq, hc0, show (0 + 1 : Nat) = 1 from rfl, hc1]
        norm_num)]
      rfl
    have := hspec.symm.trans h1
    exact (Option.some_inj.mp this).symm
  · have h1 := hgen [("x", 3), ("y", 1)] [] 10 150 (by decide)
    rw [hwa150] at h1
    have hspec : specResolvePhrase (get_top_votes [("x", 3), ("y", 1)] 10)
        (sumCounts (get_top_votes [("x", 3), ("y", 1)] 10)) (300 : ℚ) = some "y" := by
      show specResolvePhrase [("x", 3), ("y", 1)] 4 (300 : ℚ) = some "y"
      unfold specResolvePhrase
      rw [show List.range ([("x", 3), ("y", 1)] : List (String × Int)).length = [0, 1]
        from rfl]
      rw [List.find?_cons_of_neg _ (by
        rw [decide_eq_true_eq, hc0, show (0 + 1 : Nat) = 1 from rfl, hc1]
        norm_num)]
      rw [List.find?_cons_of_pos _ (by
        rw [decide_eq_true_eq, hc1, show (1 + 1 : Nat) = 2 from rfl, hc2]
        norm_num)]
      rfl
    have := hspec.symm.trans h1
    exact (Option.some_inj.mp this).symm

/-- Witness for C6: the general part applied at the concrete two-segment
view with rotation 150 (wheel angle 300). -/
theorem claim_C6_witness :
    specResolvePhrase (get_top_votes [("x", 3), ("y", 1)] 10)
        (sumCounts (get_top_votes [("x", 3), ("y", 1)] 10))
        (qmod (90 - qmod (150 : ℚ) 360) 360) =
      some ((pointer_details [("x", 3), ("y", 1)] [] 10 150).1) :=
  claim_C6.1 [("x", 3), ("y", 1)] [] 10 150 (by decide)

end TwitchWheel
